import Mathlib

/-!
# Verification of the Mini CDN Simulator cache policies and simulation engine

Shallow embedding of the repository's cache replacement policies
(`src/cache/policies.py`, `src/cache/manager.py`), the simulation engine
(`src/simulation/engine.py`), and the metrics aggregation, together with
proofs of the specified properties.

Python dictionaries (`dict`, `OrderedDict`, `defaultdict`) are modelled as
insertion-ordered association lists over `Nat` keys.  Python operations that
can raise (`OrderedDict.popitem` on an empty dict, `random.choice` on an
empty list, an unbound local variable) are modelled with `Option`.
-/

set_option maxHeartbeats 1000000

/-- Keys, values, node identifiers and latencies are all natural numbers. -/
abbrev Key := Nat

abbrev Value := Nat

namespace AL

/-- `get? l q`: dictionary lookup, first entry with key `q` (Python `d[q]` /
`d.get(q)`). -/
def get? {α : Type} : List (Nat × α) → Nat → Option α
  | [], _ => none
  | (k, a) :: rest, q => if k = q then some a else get? rest q

/-- `set l q b`: Python `d[q] = b` — update the first entry with key `q`
in place (keeping its position), or append a fresh entry at the end. -/
def set {α : Type} : List (Nat × α) → Nat → α → List (Nat × α)
  | [], q, b => [(q, b)]
  | (k, a) :: rest, q, b => if k = q then (q, b) :: rest else (k, a) :: set rest q b

/-- `del l q`: Python `del d[q]` — remove the first entry with key `q`
(identity when absent; the claims' theorems only use it on present keys). -/
def del {α : Type} : List (Nat × α) → Nat → List (Nat × α)
  | [], _ => []
  | (k, a) :: rest, q => if k = q then rest else (k, a) :: del rest q

/-- The key sequence of an association list, in storage order. -/
def keys {α : Type} (l : List (Nat × α)) : List Nat := l.map (·.1)

theorem get?_isSome_iff_mem_keys {α : Type} (l : List (Nat × α)) (q : Nat) :
    (get? l q).isSome ↔ q ∈ keys l := by
  induction l with
  | nil => simp [get?, keys]
  | cons p rest ih =>
    obtain ⟨k, a⟩ := p
    by_cases h : k = q
    · subst h
      simp [get?, keys]
    · simp only [get?, if_neg h]
      rw [ih]
      simp only [keys, List.map_cons, List.mem_cons]
      constructor
      · exact fun hq => Or.inr hq
      · rintro (hq | hq)
        · exact absurd hq.symm h
        · exact hq

theorem get?_set_self {α : Type} (l : List (Nat × α)) (q : Nat) (b : α) :
    get? (set l q b) q = some b := by
  induction l with
  | nil => simp [get?, set]
  | cons p rest ih =>
    obtain ⟨k, a⟩ := p
    by_cases h : k = q <;> simp [get?, set, h, ih]

theorem get?_set_ne {α : Type} (l : List (Nat × α)) (q q' : Nat) (b : α)
    (h : q' ≠ q) : get? (set l q b) q' = get? l q' := by
  induction l with
  | nil => simp [get?, set, Ne.symm h]
  | cons p rest ih =>
    obtain ⟨k, a⟩ := p
    by_cases hk : k = q
    · subst hk
      simp [get?, set, Ne.symm h]
    · simp [get?, set, hk, ih]

theorem get?_del_ne {α : Type} (l : List (Nat × α)) (q q' : Nat)
    (h : q' ≠ q) : get? (del l q) q' = get? l q' := by
  induction l with
  | nil => simp [get?, del]
  | cons p rest ih =>
    obtain ⟨k, a⟩ := p
    by_cases hk : k = q
    · subst hk
      simp [get?, del, Ne.symm h]
    · simp [get?, del, hk, ih]

theorem keys_del_sublist {α : Type} (l : List (Nat × α)) (q : Nat) :
    (keys (del l q)).Sublist (keys l) := by
  induction l with
  | nil => simp [del, keys]
  | cons p rest ih =>
    obtain ⟨k, a⟩ := p
    by_cases hk : k = q
    · simp [del, keys, hk]
    · simpa [del, keys, hk] using ih.cons₂ k

theorem nodup_keys_del {α : Type} (l : List (Nat × α)) (q : Nat)
    (h : (keys l).Nodup) : (keys (del l q)).Nodup :=
  (keys_del_sublist l q).nodup h

theorem get?_del_self {α : Type} (l : List (Nat × α)) (q : Nat)
    (h : (keys l).Nodup) : get? (del l q) q = none := by
  induction l with
  | nil => simp [get?, del]
  | cons p rest ih =>
    obtain ⟨k, a⟩ := p
    simp only [keys, List.map_cons, List.nodup_cons] at h
    by_cases hk : k = q
    · subst hk
      simp only [del, if_pos rfl]
      cases hget : get? rest k with
      | none => exact hget
      | some b =>
        exfalso
        exact h.1 (((get?_isSome_iff_mem_keys rest k).1 (by simp [hget])))
    · simp [get?, del, hk, ih h.2]

theorem keys_set_of_isSome {α : Type} (l : List (Nat × α)) (q : Nat) (b : α)
    (h : (get? l q).isSome) : keys (set l q b) = keys l := by
  induction l with
  | nil => simp [get?] at h
  | cons p rest ih =>
    obtain ⟨k, a⟩ := p
    by_cases hk : k = q
    · simp [set, keys, hk]
    · simp only [get?, if_neg hk] at h
      have hrec := ih h
      simp only [keys] at hrec
      simp [set, keys, hk, hrec]

theorem keys_set_of_none {α : Type} (l : List (Nat × α)) (q : Nat) (b : α)
    (h : get? l q = none) : keys (set l q b) = keys l ++ [q] := by
  induction l with
  | nil => simp [set, keys]
  | cons p rest ih =>
    obtain ⟨k, a⟩ := p
    by_cases hk : k = q
    · simp [get?, hk] at h
    · simp only [get?, if_neg hk] at h
      have hrec := ih h
      simp only [keys] at hrec
      simp [set, keys, hk, hrec]

theorem length_set_of_isSome {α : Type} (l : List (Nat × α)) (q : Nat) (b : α)
    (h : (get? l q).isSome) : (set l q b).length = l.length := by
  induction l with
  | nil => simp [get?] at h
  | cons p rest ih =>
    obtain ⟨k, a⟩ := p
    by_cases hk : k = q
    · simp [set, hk]
    · simp only [get?, if_neg hk] at h
      simp [set, hk, ih h]

theorem length_set_of_none {α : Type} (l : List (Nat × α)) (q : Nat) (b : α)
    (h : get? l q = none) : (set l q b).length = l.length + 1 := by
  induction l with
  | nil => simp [set]
  | cons p rest ih =>
    obtain ⟨k, a⟩ := p
    by_cases hk : k = q
    · simp [get?, hk] at h
    · simp only [get?, if_neg hk] at h
      simp [set, hk, ih h]

theorem length_del_of_isSome {α : Type} (l : List (Nat × α)) (q : Nat)
    (h : (get? l q).isSome) : l.length = (del l q).length + 1 := by
  induction l with
  | nil => simp [get?] at h
  | cons p rest ih =>
    obtain ⟨k, a⟩ := p
    by_cases hk : k = q
    · simp [del, hk]
    · simp only [get?, if_neg hk] at h
      simp [del, hk, ih h]

theorem length_del_le {α : Type} (l : List (Nat × α)) (q : Nat) :
    (del l q).length ≤ l.length := by
  induction l with
  | nil => simp [del]
  | cons p rest ih =>
    obtain ⟨k, a⟩ := p
    by_cases hk : k = q
    · simp [del, hk]
    · simp only [del, if_neg hk, List.length_cons]
      omega

theorem not_mem_keys_del_self {α : Type} (l : List (Nat × α)) (q : Nat)
    (h : (keys l).Nodup) : q ∉ keys (del l q) := by
  intro hmem
  have h1 := (get?_isSome_iff_mem_keys (del l q) q).2 hmem
  rw [get?_del_self l q h] at h1
  simp at h1

theorem not_mem_keys_of_get?_none {α : Type} (l : List (Nat × α)) (q : Nat)
    (h : get? l q = none) : q ∉ keys l := by
  intro hmem
  have h1 := (get?_isSome_iff_mem_keys l q).2 hmem
  rw [h] at h1
  simp at h1

theorem get?_eq_none_iff {α : Type} (l : List (Nat × α)) (q : Nat) :
    get? l q = none ↔ q ∉ keys l := by
  rw [← get?_isSome_iff_mem_keys]
  cases get? l q <;> simp

theorem keys_cons {α : Type} (p : Nat × α) (rest : List (Nat × α)) :
    keys (p :: rest) = p.1 :: keys rest := rfl

theorem get?_cons {α : Type} (k : Nat) (c : α) (rest : List (Nat × α)) (q : Nat) :
    get? ((k, c) :: rest) q = if k = q then some c else get? rest q := rfl

theorem set_cons {α : Type} (k : Nat) (c : α) (rest : List (Nat × α)) (q : Nat) (b : α) :
    set ((k, c) :: rest) q b =
      if k = q then (q, b) :: rest else (k, c) :: set rest q b := rfl

theorem del_cons {α : Type} (k : Nat) (c : α) (rest : List (Nat × α)) (q : Nat) :
    del ((k, c) :: rest) q = if k = q then rest else (k, c) :: del rest q := rfl

theorem nodup_keys_set {α : Type} (l : List (Nat × α)) (q : Nat) (b : α)
    (h : (keys l).Nodup) : (keys (set l q b)).Nodup := by
  cases hm : get? l q with
  | some a => rw [keys_set_of_isSome l q b (by simp [hm])]; exact h
  | none =>
    rw [keys_set_of_none l q b hm, List.nodup_append]
    refine ⟨h, List.nodup_singleton q, ?_⟩
    intro x hx hq
    simp only [List.mem_singleton] at hq
    subst hq
    exact not_mem_keys_of_get?_none l x hm hx

theorem get?_mem {α : Type} (l : List (Nat × α)) (q : Nat) (a : α)
    (h : get? l q = some a) : (q, a) ∈ l := by
  induction l with
  | nil => simp [get?] at h
  | cons p rest ih =>
    obtain ⟨k, c⟩ := p
    by_cases hk : k = q
    · subst hk
      rw [get?_cons, if_pos rfl] at h
      have hca : c = a := by simpa using h
      subst hca
      exact List.mem_cons_self _ _
    · rw [get?_cons, if_neg hk] at h
      exact List.mem_cons_of_mem _ (ih h)

theorem mem_get? {α : Type} (l : List (Nat × α)) (p : Nat × α)
    (hn : (keys l).Nodup) (h : p ∈ l) : get? l p.1 = some p.2 := by
  induction l with
  | nil => simp at h
  | cons hd rest ih =>
    obtain ⟨k, c⟩ := hd
    rw [keys_cons, List.nodup_cons] at hn
    rcases List.mem_cons.1 h with hp | hp
    · subst hp
      rw [get?_cons, if_pos rfl]
    · have hsome := ih hn.2 hp
      have hne : k ≠ p.1 := by
        intro he
        apply hn.1
        rw [he]
        exact (get?_isSome_iff_mem_keys rest p.1).1 (by simp [hsome])
      rw [get?_cons, if_neg hne]
      exact hsome

theorem mem_set_iff {α : Type} (l : List (Nat × α)) (q : Nat) (b : α)
    (p : Nat × α) (hn : (keys l).Nodup) :
    p ∈ set l q b ↔ p = (q, b) ∨ (p ∈ l ∧ p.1 ≠ q) := by
  induction l with
  | nil => simp [set]
  | cons hd rest ih =>
    obtain ⟨k, c⟩ := hd
    rw [keys_cons, List.nodup_cons] at hn
    by_cases hk : k = q
    · subst hk
      rw [set_cons, if_pos rfl]
      simp only [List.mem_cons]
      constructor
      · rintro (hp | hp)
        · exact Or.inl hp
        · refine Or.inr ⟨Or.inr hp, ?_⟩
          intro he
          apply hn.1
          rw [← he]
          exact List.mem_map_of_mem (·.1) hp
      · rintro (hp | ⟨hp | hp, hne⟩)
        · exact Or.inl hp
        · exact absurd (by rw [hp]) hne
        · exact Or.inr hp
    · rw [set_cons, if_neg hk]
      simp only [List.mem_cons, ih hn.2]
      constructor
      · rintro (hp | hp | hp)
        · refine Or.inr ⟨Or.inl hp, ?_⟩
          rw [hp]
          exact hk
        · exact Or.inl hp
        · exact Or.inr ⟨Or.inr hp.1, hp.2⟩
      · rintro (hp | ⟨hp | hp, hne⟩)
        · exact Or.inr (Or.inl hp)
        · exact Or.inl hp
        · exact Or.inr (Or.inr ⟨hp, hne⟩)

theorem mem_del_iff {α : Type} (l : List (Nat × α)) (q : Nat)
    (p : Nat × α) (hn : (keys l).Nodup) :
    p ∈ del l q ↔ p ∈ l ∧ p.1 ≠ q := by
  induction l with
  | nil => simp [del]
  | cons hd rest ih =>
    obtain ⟨k, c⟩ := hd
    rw [keys_cons, List.nodup_cons] at hn
    by_cases hk : k = q
    · subst hk
      rw [del_cons, if_pos rfl]
      simp only [List.mem_cons]
      constructor
      · intro hp
        refine ⟨Or.inr hp, ?_⟩
        intro he
        apply hn.1
        rw [← he]
        exact List.mem_map_of_mem (·.1) hp
      · rintro ⟨hp | hp, hne⟩
        · exact absurd (by rw [hp]) hne
        · exact hp
    · rw [del_cons, if_neg hk]
      simp only [List.mem_cons, ih hn.2]
      constructor
      · rintro (hp | hp)
        · refine ⟨Or.inl hp, ?_⟩
          rw [hp]
          exact hk
        · exact ⟨Or.inr hp.1, hp.2⟩
      · rintro ⟨hp | hp, hne⟩
        · exact Or.inl hp
        · exact Or.inr ⟨hp, hne⟩

theorem get?_append {α : Type} (l₁ l₂ : List (Nat × α)) (q : Nat) :
    get? (l₁ ++ l₂) q =
      match get? l₁ q with
      | some a => some a
      | none => get? l₂ q := by
  induction l₁ with
  | nil => simp [get?]
  | cons p rest ih =>
    obtain ⟨k, a⟩ := p
    by_cases hk : k = q <;> simp [get?, hk, ih]

end AL

/-! ## Eviction policies (`src/cache/policies.py`)

The five policies store content as a bounded key→value dictionary.
`OrderedDict` is an insertion-ordered dictionary; `move_to_end` re-inserts an
existing key at the newest position; `popitem(last=False)` removes the oldest
entry and raises `KeyError` on an empty dictionary. -/

/-- One cache operation of the common policy contract.  The field `r` of
`put` feeds the uniform-random eviction choice of `RandomCache` (it is
ignored by the deterministic policies); `has` is `contains`. -/
inductive CacheOp where
  | get (k : Key)
  | put (k : Key) (v : Value) (r : Nat)
  | has (k : Key)

/-- State of `LRUCache`: capacity, insertion/recency-ordered dictionary
(oldest first), hit and miss counters. -/
structure LRUState where
  capacity : Nat
  cache : List (Key × Value)
  hits : Nat
  misses : Nat

/-- A fresh `LRUCache(capacity)`. -/
def lruEmpty (c : Nat) : LRUState := ⟨c, [], 0, 0⟩

/-- `LRUCache.get`: on a miss count it and return `None`; on a hit move the
key to the most-recently-used end, count the hit and return the value. -/
def lruGet (k : Key) (s : LRUState) : Option Value × LRUState :=
  match AL.get? s.cache k with
  | none => (none, { s with misses := s.misses + 1 })
  | some v =>
      (some v, { s with cache := AL.del s.cache k ++ [(k, v)], hits := s.hits + 1 })

/-- `LRUCache.put`: an existing key is moved to the end and its value
updated; a new key first evicts the least-recently-used entry when
`len(cache) >= capacity` (`popitem(last=False)`, which raises on an empty
dictionary — in particular whenever `capacity = 0`), then is appended. -/
def lruPut (k : Key) (v : Value) (s : LRUState) : Option LRUState :=
  match AL.get? s.cache k with
  | some w =>
      some { s with cache := AL.set (AL.del s.cache k ++ [(k, w)]) k v }
  | none =>
      if s.cache.length ≥ s.capacity then
        match s.cache with
        | [] => none
        | _ :: rest => some { s with cache := AL.set rest k v }
      else
        some { s with cache := AL.set s.cache k v }

/-- `LRUCache.contains`. -/
def lruContains (k : Key) (s : LRUState) : Bool := (AL.get? s.cache k).isSome

/-- State of `FIFOCache`: capacity, insertion-ordered dictionary (oldest
first), hit and miss counters. -/
structure FIFOState where
  capacity : Nat
  cache : List (Key × Value)
  hits : Nat
  misses : Nat

/-- A fresh `FIFOCache(capacity)`. -/
def fifoEmpty (c : Nat) : FIFOState := ⟨c, [], 0, 0⟩

/-- `FIFOCache.get`: counts a hit or a miss; never reorders. -/
def fifoGet (k : Key) (s : FIFOState) : Option Value × FIFOState :=
  match AL.get? s.cache k with
  | none => (none, { s with misses := s.misses + 1 })
  | some v => (some v, { s with hits := s.hits + 1 })

/-- `FIFOCache.put`: does nothing at all when the key is already present;
a new key first evicts the oldest entry when `len(cache) >= capacity`
(`popitem(last=False)`, raising on an empty dictionary), then is appended. -/
def fifoPut (k : Key) (v : Value) (s : FIFOState) : Option FIFOState :=
  if (AL.get? s.cache k).isSome then some s
  else
    if s.cache.length ≥ s.capacity then
      match s.cache with
      | [] => none
      | _ :: rest => some { s with cache := AL.set rest k v }
    else
      some { s with cache := AL.set s.cache k v }

/-- `FIFOCache.contains`. -/
def fifoContains (k : Key) (s : FIFOState) : Bool := (AL.get? s.cache k).isSome

/-- State of `RandomCache`: capacity, dictionary (plain `dict`, still
insertion-ordered in Python 3.7+), hit and miss counters. -/
structure RandState where
  capacity : Nat
  cache : List (Key × Value)
  hits : Nat
  misses : Nat

/-- A fresh `RandomCache(capacity)`. -/
def randEmpty (c : Nat) : RandState := ⟨c, [], 0, 0⟩

/-- `RandomCache.get`: counts a hit or a miss; never reorders. -/
def randGet (k : Key) (s : RandState) : Option Value × RandState :=
  match AL.get? s.cache k with
  | none => (none, { s with misses := s.misses + 1 })
  | some v => (some v, { s with hits := s.hits + 1 })

/-- `RandomCache.put`: does nothing when the key is already present; for a
new key at `len(cache) >= capacity` it deletes `random.choice(list(keys))` —
modelled as the key at position `r % len(keys)`, every position being
reachable for a suitable draw; `random.choice` on an empty list raises
`IndexError` (in particular whenever `capacity = 0`). -/
def randPut (r : Nat) (k : Key) (v : Value) (s : RandState) : Option RandState :=
  if (AL.get? s.cache k).isSome then some s
  else
    if s.cache.length ≥ s.capacity then
      match s.cache with
      | [] => none
      | _ :: _ =>
          let ks := AL.keys s.cache
          let ek := ks.getD (r % ks.length) 0
          some { s with cache := AL.set (AL.del s.cache ek) k v }
    else
      some { s with cache := AL.set s.cache k v }

/-- `RandomCache.contains`. -/
def randContains (k : Key) (s : RandState) : Bool := (AL.get? s.cache k).isSome

/-- One operation of the common contract on an `LRUCache`. -/
def lruStep (s : LRUState) : CacheOp → Option LRUState
  | .get k => some (lruGet k s).2
  | .put k v _ => lruPut k v s
  | .has _ => some s

/-- A sequence of operations on an `LRUCache` (`none` once any step raises). -/
def lruRun : List CacheOp → LRUState → Option LRUState
  | [], s => some s
  | op :: ops, s =>
      match lruStep s op with
      | none => none
      | some t => lruRun ops t

/-- One operation of the common contract on a `FIFOCache`. -/
def fifoStep (s : FIFOState) : CacheOp → Option FIFOState
  | .get k => some (fifoGet k s).2
  | .put k v _ => fifoPut k v s
  | .has _ => some s

/-- A sequence of operations on a `FIFOCache`. -/
def fifoRun : List CacheOp → FIFOState → Option FIFOState
  | [], s => some s
  | op :: ops, s =>
      match fifoStep s op with
      | none => none
      | some t => fifoRun ops t

/-- One operation of the common contract on a `RandomCache`. -/
def randStep (s : RandState) : CacheOp → Option RandState
  | .get k => some (randGet k s).2
  | .put k v r => randPut r k v s
  | .has _ => some s

/-- A sequence of operations on a `RandomCache`. -/
def randRun : List CacheOp → RandState → Option RandState
  | [], s => some s
  | op :: ops, s =>
      match randStep s op with
      | none => none
      | some t => randRun ops t

/-- Invariant of a positive-capacity `LRUCache`: keys are unique and the
size is bounded by the capacity. -/
def lruInv (s : LRUState) : Prop :=
  (AL.keys s.cache).Nodup ∧ s.cache.length ≤ s.capacity ∧ 1 ≤ s.capacity

/-- Invariant of a positive-capacity `FIFOCache`. -/
def fifoInv (s : FIFOState) : Prop :=
  (AL.keys s.cache).Nodup ∧ s.cache.length ≤ s.capacity ∧ 1 ≤ s.capacity

/-- Invariant of a positive-capacity `RandomCache`. -/
def randInv (s : RandState) : Prop :=
  (AL.keys s.cache).Nodup ∧ s.cache.length ≤ s.capacity ∧ 1 ≤ s.capacity

/-- Moving an existing key to the newest position keeps the key set unique
and the size unchanged. -/
theorem moveToEnd_facts {v : Value} (c : List (Key × Value)) (k : Key)
    (hn : (AL.keys c).Nodup) (hm : AL.get? c k = some v) :
    (AL.keys (AL.del c k ++ [(k, v)])).Nodup ∧
      (AL.del c k ++ [(k, v)]).length = c.length := by
  have hdel : (AL.keys (AL.del c k)).Nodup := AL.nodup_keys_del c k hn
  have hnot : k ∉ AL.keys (AL.del c k) := AL.not_mem_keys_del_self c k hn
  have hlen : c.length = (AL.del c k).length + 1 :=
    AL.length_del_of_isSome c k (by simp [hm])
  constructor
  · simp only [AL.keys, List.map_append, List.map_cons, List.map_nil]
    rw [List.nodup_append]
    refine ⟨hdel, List.nodup_singleton k, ?_⟩
    intro a ha hb
    simp only [List.mem_singleton] at hb
    subst hb
    exact hnot ha
  · simp only [List.length_append, List.length_singleton]
    omega

/-- Inserting a fresh key (dictionary assignment of an absent key) appends
it: key uniqueness is preserved and the size grows by one. -/
theorem freshInsert_facts {α : Type} (c : List (Nat × α)) (k : Nat) (v : α)
    (hn : (AL.keys c).Nodup) (hm : AL.get? c k = none) :
    (AL.keys (AL.set c k v)).Nodup ∧ (AL.set c k v).length = c.length + 1 := by
  have hnot : k ∉ AL.keys c := AL.not_mem_keys_of_get?_none c k hm
  constructor
  · rw [AL.keys_set_of_none c k v hm, List.nodup_append]
    exact ⟨hn, List.nodup_singleton k, by
      intro a ha hb
      simp only [List.mem_singleton] at hb
      subst hb
      exact hnot ha⟩
  · exact AL.length_set_of_none c k v hm

/-- Every `LRUCache` operation on an invariant-satisfying state succeeds and
preserves the invariant and the capacity. -/
theorem lruStep_inv (s : LRUState) (op : CacheOp) (h : lruInv s) :
    ∃ t, lruStep s op = some t ∧ lruInv t ∧ t.capacity = s.capacity := by
  obtain ⟨hn, hlen, hcap⟩ := h
  obtain ⟨cap, c, hh, mm⟩ := s
  simp only at hn hlen hcap
  cases op with
  | has k => exact ⟨_, rfl, ⟨hn, hlen, hcap⟩, rfl⟩
  | get k =>
    cases hm : AL.get? c k with
    | none =>
      refine ⟨_, rfl, ?_, ?_⟩
      · show lruInv (lruGet k ⟨cap, c, hh, mm⟩).2
        simp only [lruInv, lruGet, hm]
        exact ⟨hn, hlen, hcap⟩
      · simp [lruGet, hm]
    | some v =>
      have h1 := moveToEnd_facts c k hn hm
      refine ⟨_, rfl, ?_, ?_⟩
      · show lruInv (lruGet k ⟨cap, c, hh, mm⟩).2
        simp only [lruInv, lruGet, hm]
        exact ⟨h1.1, by rw [h1.2]; exact hlen, hcap⟩
      · simp [lruGet, hm]
  | put k v r =>
    simp only [lruStep]
    cases hm : AL.get? c k with
    | some w =>
      have h1 := moveToEnd_facts c k hn hm
      have h2 : (AL.get? (AL.del c k ++ [(k, w)]) k).isSome := by
        rw [AL.get?_append, AL.get?_del_self c k hn]
        simp [AL.get?]
      refine ⟨⟨cap, AL.set (AL.del c k ++ [(k, w)]) k v, hh, mm⟩, ?_, ?_, rfl⟩
      · simp [lruPut, hm]
      · refine ⟨?_, ?_, hcap⟩
        · show (AL.keys (AL.set (AL.del c k ++ [(k, w)]) k v)).Nodup
          rw [AL.keys_set_of_isSome _ _ _ h2]
          exact h1.1
        · show (AL.set (AL.del c k ++ [(k, w)]) k v).length ≤ cap
          rw [AL.length_set_of_isSome _ _ _ h2, h1.2]
          exact hlen
    | none =>
      by_cases hfull : c.length ≥ cap
      · obtain ⟨p, rest, hc⟩ : ∃ p rest, c = p :: rest := by
          cases c with
          | nil => simp at hfull; omega
          | cons p rest => exact ⟨p, rest, rfl⟩
        subst hc
        have hn' : (AL.keys rest).Nodup := by
          rw [AL.keys_cons, List.nodup_cons] at hn
          exact hn.2
        have hm' : AL.get? rest k = none := by
          rw [AL.get?_eq_none_iff] at hm ⊢
          rw [AL.keys_cons, List.mem_cons] at hm
          exact fun hk => hm (Or.inr hk)
        have h1 := freshInsert_facts rest k v hn' hm'
        refine ⟨⟨cap, AL.set rest k v, hh, mm⟩, ?_, ?_, rfl⟩
        · simp [lruPut, hm, hfull]
          intro hcontra
          have hge : rest.length + 1 ≥ cap := by simpa using hfull
          omega
        · refine ⟨h1.1, ?_, hcap⟩
          show (AL.set rest k v).length ≤ cap
          rw [h1.2]
          simpa using hlen
      · have h1 := freshInsert_facts c k v hn hm
        refine ⟨⟨cap, AL.set c k v, hh, mm⟩, ?_, ?_, rfl⟩
        · simp [lruPut, hm, hfull]
        · refine ⟨h1.1, ?_, hcap⟩
          show (AL.set c k v).length ≤ cap
          rw [h1.2]
          omega

/-- Every `FIFOCache` operation on an invariant-satisfying state succeeds
and preserves the invariant and the capacity. -/
theorem fifoStep_inv (s : FIFOState) (op : CacheOp) (h : fifoInv s) :
    ∃ t, fifoStep s op = some t ∧ fifoInv t ∧ t.capacity = s.capacity := by
  obtain ⟨hn, hlen, hcap⟩ := h
  obtain ⟨cap, c, hh, mm⟩ := s
  simp only at hn hlen hcap
  cases op with
  | has k => exact ⟨_, rfl, ⟨hn, hlen, hcap⟩, rfl⟩
  | get k =>
    refine ⟨_, rfl, ?_, ?_⟩
    · show fifoInv (fifoGet k ⟨cap, c, hh, mm⟩).2
      cases hm : AL.get? c k <;>
        (simp only [fifoInv, fifoGet, hm]; exact ⟨hn, hlen, hcap⟩)
    · cases hm : AL.get? c k <;> simp [fifoGet, hm]
  | put k v r =>
    simp only [fifoStep]
    cases hm : AL.get? c k with
    | some w =>
      exact ⟨⟨cap, c, hh, mm⟩, by simp [fifoPut, hm], ⟨hn, hlen, hcap⟩, rfl⟩
    | none =>
      by_cases hfull : c.length ≥ cap
      · obtain ⟨p, rest, hc⟩ : ∃ p rest, c = p :: rest := by
          cases c with
          | nil => simp at hfull; omega
          | cons p rest => exact ⟨p, rest, rfl⟩
        subst hc
        have hn' : (AL.keys rest).Nodup := by
          rw [AL.keys_cons, List.nodup_cons] at hn
          exact hn.2
        have hm' : AL.get? rest k = none := by
          rw [AL.get?_eq_none_iff] at hm ⊢
          rw [AL.keys_cons, List.mem_cons] at hm
          exact fun hk => hm (Or.inr hk)
        have h1 := freshInsert_facts rest k v hn' hm'
        refine ⟨⟨cap, AL.set rest k v, hh, mm⟩, ?_, ?_, rfl⟩
        · simp [fifoPut, hm, hfull]
          intro hcontra
          have hge : rest.length + 1 ≥ cap := by simpa using hfull
          omega
        · refine ⟨h1.1, ?_, hcap⟩
          show (AL.set rest k v).length ≤ cap
          rw [h1.2]
          simpa using hlen
      · have h1 := freshInsert_facts c k v hn hm
        refine ⟨⟨cap, AL.set c k v, hh, mm⟩, ?_, ?_, rfl⟩
        · simp [fifoPut, hm, hfull]
        · refine ⟨h1.1, ?_, hcap⟩
          show (AL.set c k v).length ≤ cap
          rw [h1.2]
          omega

/-- Every `RandomCache` operation on an invariant-satisfying state succeeds
and preserves the invariant and the capacity, whatever the random draw. -/
theorem randStep_inv (s : RandState) (op : CacheOp) (h : randInv s) :
    ∃ t, randStep s op = some t ∧ randInv t ∧ t.capacity = s.capacity := by
  obtain ⟨hn, hlen, hcap⟩ := h
  obtain ⟨cap, c, hh, mm⟩ := s
  simp only at hn hlen hcap
  cases op with
  | has k => exact ⟨_, rfl, ⟨hn, hlen, hcap⟩, rfl⟩
  | get k =>
    refine ⟨_, rfl, ?_, ?_⟩
    · show randInv (randGet k ⟨cap, c, hh, mm⟩).2
      cases hm : AL.get? c k <;>
        (simp only [randInv, randGet, hm]; exact ⟨hn, hlen, hcap⟩)
    · cases hm : AL.get? c k <;> simp [randGet, hm]
  | put k v r =>
    simp only [randStep]
    cases hm : AL.get? c k with
    | some w =>
      exact ⟨⟨cap, c, hh, mm⟩, by simp [randPut, hm], ⟨hn, hlen, hcap⟩, rfl⟩
    | none =>
      by_cases hfull : c.length ≥ cap
      · obtain ⟨p, rest, hc⟩ : ∃ p rest, c = p :: rest := by
          cases c with
          | nil => simp at hfull; omega
          | cons p rest => exact ⟨p, rest, rfl⟩
        subst hc
        have hne : 0 < (AL.keys (p :: rest)).length := by
          simp [AL.keys]
        have hlt : r % (AL.keys (p :: rest)).length < (AL.keys (p :: rest)).length :=
          Nat.mod_lt _ hne
        have hekmem :
            (AL.keys (p :: rest)).getD (r % (AL.keys (p :: rest)).length) 0 ∈
              AL.keys (p :: rest) := by
          rw [List.getD_eq_getElem _ _ hlt]
          exact List.getElem_mem hlt
        have heksome :
            (AL.get? (p :: rest)
              ((AL.keys (p :: rest)).getD (r % (AL.keys (p :: rest)).length) 0)).isSome :=
          (AL.get?_isSome_iff_mem_keys _ _).2 hekmem
        have hdeln := AL.nodup_keys_del (p :: rest)
          ((AL.keys (p :: rest)).getD (r % (AL.keys (p :: rest)).length) 0) hn
        have hdelm : AL.get?
            (AL.del (p :: rest)
              ((AL.keys (p :: rest)).getD (r % (AL.keys (p :: rest)).length) 0)) k
            = none := by
          rw [AL.get?_eq_none_iff]
          intro hkmem
          exact AL.not_mem_keys_of_get?_none _ k hm
            ((AL.keys_del_sublist _ _).mem hkmem)
        have h1 := freshInsert_facts _ k v hdeln hdelm
        have hdlen := AL.length_del_of_isSome (p :: rest)
          ((AL.keys (p :: rest)).getD (r % (AL.keys (p :: rest)).length) 0) heksome
        refine ⟨⟨cap,
          AL.set (AL.del (p :: rest)
            ((AL.keys (p :: rest)).getD (r % (AL.keys (p :: rest)).length) 0)) k v,
          hh, mm⟩, ?_, ?_, rfl⟩
        · simp [randPut, hm, hfull]
          intro hcontra
          have hge : rest.length + 1 ≥ cap := by simpa using hfull
          omega
        · refine ⟨h1.1, ?_, hcap⟩
          show (AL.set (AL.del (p :: rest)
            ((AL.keys (p :: rest)).getD (r % (AL.keys (p :: rest)).length) 0)) k v).length ≤ cap
          rw [h1.2]
          have hlen' : (p :: rest).length ≤ cap := hlen
          omega
      · have h1 := freshInsert_facts c k v hn hm
        refine ⟨⟨cap, AL.set c k v, hh, mm⟩, ?_, ?_, rfl⟩
        · simp [randPut, hm, hfull]
        · refine ⟨h1.1, ?_, hcap⟩
          show (AL.set c k v).length ≤ cap
          rw [h1.2]
          omega

/-- A whole operation sequence on an invariant-satisfying `LRUCache`
succeeds and ends in an invariant-satisfying state with the same capacity. -/
theorem lruRun_inv (ops : List CacheOp) (s : LRUState) (h : lruInv s) :
    ∃ t, lruRun ops s = some t ∧ lruInv t ∧ t.capacity = s.capacity := by
  induction ops generalizing s with
  | nil => exact ⟨s, rfl, h, rfl⟩
  | cons op ops ih =>
    obtain ⟨t, hstep, hinv, hct⟩ := lruStep_inv s op h
    obtain ⟨u, hrun, hinv', hcu⟩ := ih t hinv
    refine ⟨u, ?_, hinv', hct ▸ hcu⟩
    simp only [lruRun, hstep]
    exact hrun

/-- A whole operation sequence on an invariant-satisfying `FIFOCache`
succeeds and ends in an invariant-satisfying state with the same capacity. -/
theorem fifoRun_inv (ops : List CacheOp) (s : FIFOState) (h : fifoInv s) :
    ∃ t, fifoRun ops s = some t ∧ fifoInv t ∧ t.capacity = s.capacity := by
  induction ops generalizing s with
  | nil => exact ⟨s, rfl, h, rfl⟩
  | cons op ops ih =>
    obtain ⟨t, hstep, hinv, hct⟩ := fifoStep_inv s op h
    obtain ⟨u, hrun, hinv', hcu⟩ := ih t hinv
    refine ⟨u, ?_, hinv', hct ▸ hcu⟩
    simp only [fifoRun, hstep]
    exact hrun

/-- A whole operation sequence on an invariant-satisfying `RandomCache`
succeeds and ends in an invariant-satisfying state with the same capacity. -/
theorem randRun_inv (ops : List CacheOp) (s : RandState) (h : randInv s) :
    ∃ t, randRun ops s = some t ∧ randInv t ∧ t.capacity = s.capacity := by
  induction ops generalizing s with
  | nil => exact ⟨s, rfl, h, rfl⟩
  | cons op ops ih =>
    obtain ⟨t, hstep, hinv, hct⟩ := randStep_inv s op h
    obtain ⟨u, hrun, hinv', hcu⟩ := ih t hinv
    refine ⟨u, ?_, hinv', hct ▸ hcu⟩
    simp only [randRun, hstep]
    exact hrun

/-! ## The frequency-based policy (`LFUCache`) -/

/-- Read a frequency bucket: `self.freq[f]` where `freq` is a
`defaultdict(OrderedDict)`, so a missing frequency reads as an empty
ordered key set. -/
def bGet (B : List (Nat × List Key)) (f : Nat) : List Key :=
  (AL.get? B f).getD []

/-- `OrderedDict` assignment `od[k] = None`: an already-present key keeps
its position, a new key is appended at the (newest) end. -/
def odAdd (l : List Key) (k : Key) : List Key :=
  if k ∈ l then l else l ++ [k]

/-- State of `LFUCache`: `cache` maps keys to `(value, frequency)`;
`freq` maps each frequency to its bucket, the insertion-ordered set of keys
currently having that frequency; `min_freq` tracks the smallest frequency
of any cached key. -/
structure LFUState where
  capacity : Nat
  cache : List (Key × Value × Nat)
  freq : List (Nat × List Key)
  min_freq : Nat
  hits : Nat
  misses : Nat

/-- A fresh `LFUCache(capacity)`. -/
def lfuEmpty (c : Nat) : LFUState := ⟨c, [], [], 0, 0, 0⟩

/-- The shared promotion bookkeeping of `LFUCache.get` (hit path) and
`LFUCache.put` (existing-key path): remove the key from its current
frequency bucket, re-store it with frequency `f + 1` and value `v`, append
it to bucket `f + 1`, and advance `min_freq` by one when its bucket has
become empty. -/
def lfuPromote (k : Key) (v : Value) (f : Nat) (s : LFUState) : LFUState :=
  let b1 := AL.set s.freq f ((bGet s.freq f).erase k)
  let c1 := AL.set s.cache k (v, f + 1)
  let b2 := AL.set b1 (f + 1) (odAdd (bGet b1 (f + 1)) k)
  let m1 := if bGet b2 s.min_freq = [] then s.min_freq + 1 else s.min_freq
  { s with cache := c1, freq := b2, min_freq := m1 }

/-- `LFUCache.get`: a miss counts and returns `None`; a hit promotes the
key (frequency + 1, value unchanged), counts, and returns the value. -/
def lfuGet (k : Key) (s : LFUState) : Option Value × LFUState :=
  match AL.get? s.cache k with
  | none => (none, { s with misses := s.misses + 1 })
  | some (v, f) =>
      let t := lfuPromote k v f s
      (some v, { t with hits := t.hits + 1 })

/-- The eviction step of `LFUCache.put`: `popitem(last=False)` has split the
minimum-frequency bucket into its oldest member `e` and the remainder
`rest`; `e` is deleted from the cache and the bucket shrinks to `rest`. -/
def lfuEvictState (s : LFUState) (e : Key) (rest : List Key) : LFUState :=
  { s with cache := AL.del s.cache e,
           freq := AL.set s.freq s.min_freq rest }

/-- The insertion tail of `LFUCache.put` for a new key: store it with
frequency 1, append it to bucket 1, and reset `min_freq` to 1. -/
def lfuInsertState (s1 : LFUState) (k : Key) (v : Value) : LFUState :=
  { s1 with cache := AL.set s1.cache k (v, 1),
            freq := AL.set s1.freq 1 (odAdd (bGet s1.freq 1) k),
            min_freq := 1 }

/-- `LFUCache.put`: a no-op at capacity zero; an existing key is promoted
with the new value; a new key first evicts the oldest member of the
minimum-frequency bucket when `len(cache) >= capacity`
(`popitem(last=False)` raising on an empty bucket), then is inserted with
frequency 1 and `min_freq` is reset to 1. -/
def lfuPut (k : Key) (v : Value) (s : LFUState) : Option LFUState :=
  if s.capacity = 0 then some s
  else
    match AL.get? s.cache k with
    | some (_, f) => some (lfuPromote k v f s)
    | none =>
        let step1 : Option LFUState :=
          if s.cache.length ≥ s.capacity then
            match bGet s.freq s.min_freq with
            | [] => none
            | e :: rest => some (lfuEvictState s e rest)
          else some s
        step1.map fun s1 => lfuInsertState s1 k v

/-- `LFUCache.contains`. -/
def lfuContains (k : Key) (s : LFUState) : Bool := (AL.get? s.cache k).isSome

/-- One operation of the common contract on an `LFUCache`. -/
def lfuStep (s : LFUState) : CacheOp → Option LFUState
  | .get k => some (lfuGet k s).2
  | .put k v _ => lfuPut k v s
  | .has _ => some s

/-- A sequence of operations on an `LFUCache`. -/
def lfuRun : List CacheOp → LFUState → Option LFUState
  | [], s => some s
  | op :: ops, s =>
      match lfuStep s op with
      | none => none
      | some t => lfuRun ops t

/-- Well-formedness of an `LFUCache` state: unique cache keys, unique
bucket-table keys, duplicate-free buckets, every cached key sits in the
bucket of its stored frequency, every bucket member is cached with that
frequency, stored frequencies are at least 1, `min_freq` names a nonempty
bucket and lower-bounds every stored frequency whenever the cache is
nonempty, and the size respects the capacity. -/
def lfuWF (s : LFUState) : Prop :=
  (AL.keys s.cache).Nodup ∧
  (AL.keys s.freq).Nodup ∧
  (∀ q ∈ s.freq, (q.2 : List Key).Nodup) ∧
  (∀ p ∈ s.cache, p.1 ∈ bGet s.freq p.2.2) ∧
  (∀ q ∈ s.freq, ∀ k ∈ q.2, (AL.get? s.cache k).map Prod.snd = some q.1) ∧
  (∀ p ∈ s.cache, 1 ≤ p.2.2) ∧
  (s.cache ≠ [] → bGet s.freq s.min_freq ≠ [] ∧ ∀ p ∈ s.cache, s.min_freq ≤ p.2.2) ∧
  s.cache.length ≤ s.capacity

theorem bGet_set_self (B : List (Nat × List Key)) (f : Nat) (l : List Key) :
    bGet (AL.set B f l) f = l := by
  simp [bGet, AL.get?_set_self]

theorem bGet_set_ne (B : List (Nat × List Key)) (f g : Nat) (l : List Key)
    (h : g ≠ f) : bGet (AL.set B f l) g = bGet B g := by
  simp [bGet, AL.get?_set_ne _ _ _ _ h]

theorem mem_odAdd_iff (l : List Key) (k k' : Key) :
    k' ∈ odAdd l k ↔ k' ∈ l ∨ k' = k := by
  unfold odAdd
  by_cases hk : k ∈ l
  · rw [if_pos hk]
    constructor
    · exact Or.inl
    · rintro (h | h)
      · exact h
      · rw [h]; exact hk
  · rw [if_neg hk]
    simp

theorem odAdd_mem_self (l : List Key) (k : Key) : k ∈ odAdd l k := by
  rw [mem_odAdd_iff]
  exact Or.inr rfl

theorem odAdd_nodup (l : List Key) (k : Key) (h : l.Nodup) :
    (odAdd l k).Nodup := by
  unfold odAdd
  by_cases hk : k ∈ l
  · rw [if_pos hk]; exact h
  · rw [if_neg hk]
    simp [List.nodup_append, h, hk]

/-- Functional form of the bucket-nodup component of `lfuWF`. -/
theorem buckets_nodup_fun (B : List (Nat × List Key))
    (h : ∀ q ∈ B, (q.2 : List Key).Nodup) (g : Nat) : (bGet B g).Nodup := by
  unfold bGet
  cases hb : AL.get? B g with
  | none => simp
  | some l => exact h (g, l) (AL.get?_mem B g l hb)

/-- Functional form of the bucket-coherence component of `lfuWF`. -/
theorem buckets_coh_fun (c : List (Key × Value × Nat))
    (B : List (Nat × List Key))
    (h : ∀ q ∈ B, ∀ k ∈ q.2, (AL.get? c k).map Prod.snd = some q.1)
    (g : Nat) (k : Key) (hk : k ∈ bGet B g) :
    (AL.get? c k).map Prod.snd = some g := by
  unfold bGet at hk
  cases hb : AL.get? B g with
  | none => rw [hb] at hk; simp at hk
  | some l =>
    rw [hb] at hk
    exact h (g, l) (AL.get?_mem B g l hb) k hk

/-- Recover the entry-quantified bucket-nodup component from its
functional form. -/
theorem buckets_nodup_entries (B : List (Nat × List Key))
    (hBn : (AL.keys B).Nodup) (h : ∀ g, (bGet B g).Nodup) :
    ∀ q ∈ B, (q.2 : List Key).Nodup := by
  intro q hq
  have hg : AL.get? B q.1 = some q.2 := AL.mem_get? B q hBn hq
  have : bGet B q.1 = q.2 := by simp [bGet, hg]
  rw [← this]
  exact h q.1

/-- Recover the entry-quantified bucket-coherence component from its
functional form. -/
theorem buckets_coh_entries (c : List (Key × Value × Nat))
    (B : List (Nat × List Key)) (hBn : (AL.keys B).Nodup)
    (h : ∀ g, ∀ k ∈ bGet B g, (AL.get? c k).map Prod.snd = some g) :
    ∀ q ∈ B, ∀ k ∈ q.2, (AL.get? c k).map Prod.snd = some q.1 := by
  intro q hq k hk
  have hg : AL.get? B q.1 = some q.2 := AL.mem_get? B q hBn hq
  have hbq : bGet B q.1 = q.2 := by simp [bGet, hg]
  exact h q.1 k (by rw [hbq]; exact hk)

/-- Promotion preserves well-formedness, the capacity, the key set and the
size of an `LFUCache`, whenever the promoted key is cached with frequency
`f`. -/
theorem lfuPromote_WF (s : LFUState) (k : Key) (v w : Value) (f : Nat)
    (hwf : lfuWF s) (hm : AL.get? s.cache k = some (w, f)) :
    lfuWF (lfuPromote k v f s) ∧
      (lfuPromote k v f s).capacity = s.capacity ∧
      AL.keys (lfuPromote k v f s).cache = AL.keys s.cache ∧
      (lfuPromote k v f s).cache.length = s.cache.length := by
  obtain ⟨hn, hBn, hBnod, hCB, hBC, hF1, hMin, hLen⟩ := hwf
  have hbnod : ∀ g, (bGet s.freq g).Nodup := buckets_nodup_fun s.freq hBnod
  have hbcoh := buckets_coh_fun s.cache s.freq hBC
  have hCne : s.cache ≠ [] := by
    intro h
    rw [h] at hm
    simp [AL.get?] at hm
  obtain ⟨hbne, hminle⟩ := hMin hCne
  have hkmem : (k, (w, f)) ∈ s.cache := AL.get?_mem _ _ _ hm
  have hmf : s.min_freq ≤ f := hminle (k, (w, f)) hkmem
  set b1 := AL.set s.freq f ((bGet s.freq f).erase k) with hb1
  set b2 := AL.set b1 (f + 1) (odAdd (bGet b1 (f + 1)) k) with hb2
  set c1 := AL.set s.cache k (v, f + 1) with hc1
  set m1 := if bGet b2 s.min_freq = [] then s.min_freq + 1 else s.min_freq with hm1
  have hunfold : lfuPromote k v f s =
      { s with cache := c1, freq := b2, min_freq := m1 } := rfl
  have hb1f : bGet b1 f = (bGet s.freq f).erase k := bGet_set_self _ _ _
  have hb1g : ∀ g, g ≠ f → bGet b1 g = bGet s.freq g :=
    fun g hg => bGet_set_ne _ _ _ _ hg
  have hb2f1 : bGet b2 (f + 1) = odAdd (bGet b1 (f + 1)) k := bGet_set_self _ _ _
  have hb2g : ∀ g, g ≠ f + 1 → bGet b2 g = bGet b1 g :=
    fun g hg => bGet_set_ne _ _ _ _ hg
  have hb1f1 : bGet b1 (f + 1) = bGet s.freq (f + 1) := hb1g _ (by omega)
  have hc1k : AL.get? c1 k = some (v, f + 1) := AL.get?_set_self _ _ _
  have hc1ne : ∀ k', k' ≠ k → AL.get? c1 k' = AL.get? s.cache k' :=
    fun k' h => AL.get?_set_ne _ _ _ _ h
  have hkeys1 : AL.keys c1 = AL.keys s.cache :=
    AL.keys_set_of_isSome _ _ _ (by simp [hm])
  have hlen1 : c1.length = s.cache.length :=
    AL.length_set_of_isSome _ _ _ (by simp [hm])
  have hb2n : (AL.keys b2).Nodup :=
    AL.nodup_keys_set _ _ _ (AL.nodup_keys_set _ _ _ hBn)
  have hb2nod : ∀ g, (bGet b2 g).Nodup := by
    intro g
    by_cases hg1 : g = f + 1
    · rw [hg1, hb2f1, hb1f1]
      exact odAdd_nodup _ _ (hbnod _)
    · rw [hb2g g hg1]
      by_cases hgf : g = f
      · rw [hgf, hb1f]
        exact (hbnod f).erase k
      · rw [hb1g g hgf]
        exact hbnod g
  have hb2coh : ∀ g, ∀ k' ∈ bGet b2 g,
      (AL.get? c1 k').map Prod.snd = some g := by
    intro g k' hk'
    by_cases hg1 : g = f + 1
    · subst hg1
      rw [hb2f1, hb1f1, mem_odAdd_iff] at hk'
      rcases hk' with hk' | hk'
      · have hold := hbcoh (f + 1) k' hk'
        have hne : k' ≠ k := by
          intro he
          rw [he, hm] at hold
          simp at hold
        rw [hc1ne k' hne]
        exact hold
      · subst hk'
        rw [hc1k]
        rfl
    · rw [hb2g g hg1] at hk'
      by_cases hgf : g = f
      · rw [hgf] at hk' ⊢
        rw [hb1f] at hk'
        have h2 := ((hbnod f).mem_erase_iff).1 hk'
        rw [hc1ne k' h2.1]
        exact hbcoh f k' h2.2
      · rw [hb1g g hgf] at hk'
        have hold := hbcoh g k' hk'
        have hne : k' ≠ k := by
          intro he
          rw [he, hm] at hold
          simp at hold
          exact hgf hold.symm
        rw [hc1ne k' hne]
        exact hold
  have hc1CB : ∀ p ∈ c1, p.1 ∈ bGet b2 p.2.2 := by
    intro p hp
    rw [AL.mem_set_iff _ _ _ _ hn] at hp
    rcases hp with hp | ⟨hp, hpne⟩
    · subst hp
      show k ∈ bGet b2 (f + 1)
      rw [hb2f1]
      exact odAdd_mem_self _ _
    · have hold := hCB p hp
      by_cases hg1 : p.2.2 = f + 1
      · rw [hg1] at hold ⊢
        rw [hb2f1, hb1f1, mem_odAdd_iff]
        exact Or.inl hold
      · rw [hb2g _ hg1]
        by_cases hgf : p.2.2 = f
        · rw [hgf] at hold ⊢
          rw [hb1f]
          exact (List.mem_erase_of_ne hpne).mpr hold
        · rw [hb1g _ hgf]
          exact hold
  have hc1F1 : ∀ p ∈ c1, 1 ≤ p.2.2 := by
    intro p hp
    rw [AL.mem_set_iff _ _ _ _ hn] at hp
    rcases hp with hp | ⟨hp, _⟩
    · subst hp
      show 1 ≤ f + 1
      omega
    · exact hF1 p hp
  have hminNew : bGet b2 m1 ≠ [] ∧ ∀ p ∈ c1, m1 ≤ p.2.2 := by
    by_cases hbe : bGet b2 s.min_freq = []
    · have hm1v : m1 = s.min_freq + 1 := by rw [hm1, if_pos hbe]
      have hfm : f = s.min_freq := by
        by_contra hfm
        have hmne1 : s.min_freq ≠ f + 1 := by omega
        have heq : bGet b2 s.min_freq = bGet s.freq s.min_freq := by
          rw [hb2g _ hmne1, hb1g _ (fun he => hfm he.symm)]
        rw [heq] at hbe
        exact hbne hbe
      constructor
      · rw [hm1v, ← hfm, hb2f1]
        exact List.ne_nil_of_mem (odAdd_mem_self _ _)
      · intro p hp
        rw [AL.mem_set_iff _ _ _ _ hn] at hp
        rcases hp with hp | ⟨hp, hpne⟩
        · subst hp
          show m1 ≤ f + 1
          rw [hm1v]
          omega
        · have hge := hminle p hp
          have hne : p.2.2 ≠ s.min_freq := by
            intro he
            have hpb : p.1 ∈ bGet s.freq p.2.2 := hCB p hp
            rw [he, ← hfm] at hpb
            have hin : p.1 ∈ bGet b2 f := by
              rw [hb2g _ (by omega), hb1f]
              exact (List.mem_erase_of_ne hpne).mpr hpb
            rw [← hfm] at hbe
            rw [hbe] at hin
            simp at hin
          rw [hm1v]
          omega
    · have hm1v : m1 = s.min_freq := by rw [hm1, if_neg hbe]
      constructor
      · rw [hm1v]
        exact hbe
      · intro p hp
        rw [AL.mem_set_iff _ _ _ _ hn] at hp
        rcases hp with hp | ⟨hp, _⟩
        · subst hp
          show m1 ≤ f + 1
          rw [hm1v]
          omega
        · rw [hm1v]
          exact hminle p hp
  rw [hunfold]
  refine ⟨⟨?_, ?_, ?_, ?_, ?_, ?_, ?_, ?_⟩, rfl, ?_, ?_⟩
  · show (AL.keys c1).Nodup
    rw [hkeys1]
    exact hn
  · exact hb2n
  · exact buckets_nodup_entries b2 hb2n hb2nod
  · exact hc1CB
  · exact buckets_coh_entries c1 b2 hb2n hb2coh
  · exact hc1F1
  · intro _
    exact hminNew
  · show c1.length ≤ s.capacity
    rw [hlen1]
    exact hLen
  · exact hkeys1
  · exact hlen1

/-- The part of `lfuWF` that survives the eviction step (everything except
the `min_freq` clause and the capacity bound). -/
def lfuPre (s : LFUState) : Prop :=
  (AL.keys s.cache).Nodup ∧
  (AL.keys s.freq).Nodup ∧
  (∀ q ∈ s.freq, (q.2 : List Key).Nodup) ∧
  (∀ p ∈ s.cache, p.1 ∈ bGet s.freq p.2.2) ∧
  (∀ q ∈ s.freq, ∀ k ∈ q.2, (AL.get? s.cache k).map Prod.snd = some q.1) ∧
  (∀ p ∈ s.cache, 1 ≤ p.2.2)

/-- Inserting a fresh key into a below-capacity, coherent `LFUCache` state
yields a well-formed state: size up by one, capacity kept. -/
theorem lfuInsert_WF (s1 : LFUState) (k : Key) (v : Value)
    (hpre : lfuPre s1) (hm : AL.get? s1.cache k = none)
    (hlen : s1.cache.length < s1.capacity) :
    lfuWF (lfuInsertState s1 k v) ∧
      (lfuInsertState s1 k v).capacity = s1.capacity ∧
      (lfuInsertState s1 k v).cache.length = s1.cache.length + 1 := by
  obtain ⟨hn, hBn, hBnod, hCB, hBC, hF1⟩ := hpre
  have hbnod : ∀ g, (bGet s1.freq g).Nodup := buckets_nodup_fun s1.freq hBnod
  have hbcoh := buckets_coh_fun s1.cache s1.freq hBC
  set c1 := AL.set s1.cache k (v, 1) with hc1
  set b1 := AL.set s1.freq 1 (odAdd (bGet s1.freq 1) k) with hb1
  have hunfold : lfuInsertState s1 k v =
      { s1 with cache := c1, freq := b1, min_freq := 1 } := rfl
  have hfresh := freshInsert_facts s1.cache k (v, 1) hn hm
  have hb1one : bGet b1 1 = odAdd (bGet s1.freq 1) k := bGet_set_self _ _ _
  have hb1g : ∀ g, g ≠ 1 → bGet b1 g = bGet s1.freq g :=
    fun g hg => bGet_set_ne _ _ _ _ hg
  have hc1k : AL.get? c1 k = some (v, 1) := AL.get?_set_self _ _ _
  have hc1ne : ∀ k', k' ≠ k → AL.get? c1 k' = AL.get? s1.cache k' :=
    fun k' h => AL.get?_set_ne _ _ _ _ h
  have hb1n : (AL.keys b1).Nodup := AL.nodup_keys_set _ _ _ hBn
  have hb1nod : ∀ g, (bGet b1 g).Nodup := by
    intro g
    by_cases hg : g = 1
    · rw [hg, hb1one]
      exact odAdd_nodup _ _ (hbnod 1)
    · rw [hb1g g hg]
      exact hbnod g
  have hb1coh : ∀ g, ∀ k' ∈ bGet b1 g,
      (AL.get? c1 k').map Prod.snd = some g := by
    intro g k' hk'
    by_cases hg : g = 1
    · subst hg
      rw [hb1one, mem_odAdd_iff] at hk'
      rcases hk' with hk' | hk'
      · have hold := hbcoh 1 k' hk'
        have hne : k' ≠ k := by
          intro he
          rw [he, hm] at hold
          simp at hold
        rw [hc1ne k' hne]
        exact hold
      · subst hk'
        rw [hc1k]
        rfl
    · rw [hb1g g hg] at hk'
      have hold := hbcoh g k' hk'
      have hne : k' ≠ k := by
        intro he
        rw [he, hm] at hold
        simp at hold
      rw [hc1ne k' hne]
      exact hold
  have hc1CB : ∀ p ∈ c1, p.1 ∈ bGet b1 p.2.2 := by
    intro p hp
    rw [AL.mem_set_iff _ _ _ _ hn] at hp
    rcases hp with hp | ⟨hp, hpne⟩
    · subst hp
      show k ∈ bGet b1 1
      rw [hb1one]
      exact odAdd_mem_self _ _
    · have hold := hCB p hp
      by_cases hg : p.2.2 = 1
      · rw [hg] at hold ⊢
        rw [hb1one, mem_odAdd_iff]
        exact Or.inl hold
      · rw [hb1g _ hg]
        exact hold
  have hc1F1 : ∀ p ∈ c1, 1 ≤ p.2.2 := by
    intro p hp
    rw [AL.mem_set_iff _ _ _ _ hn] at hp
    rcases hp with hp | ⟨hp, _⟩
    · subst hp
      show 1 ≤ 1
      omega
    · exact hF1 p hp
  rw [hunfold]
  refine ⟨⟨?_, ?_, ?_, ?_, ?_, ?_, ?_, ?_⟩, rfl, ?_⟩
  · exact hfresh.1
  · exact hb1n
  · exact buckets_nodup_entries b1 hb1n hb1nod
  · exact hc1CB
  · exact buckets_coh_entries c1 b1 hb1n hb1coh
  · exact hc1F1
  · intro _
    constructor
    · show bGet b1 1 ≠ []
      rw [hb1one]
      exact List.ne_nil_of_mem (odAdd_mem_self _ _)
    · exact hc1F1
  · show c1.length ≤ s1.capacity
    rw [hfresh.2]
    omega
  · exact hfresh.2

/-- The eviction step on a well-formed `LFUCache` state whose
minimum-frequency bucket splits as `e :: rest`: the survivor state is
coherent, one entry smaller, and the evicted key `e` was cached with the
minimum frequency. -/
theorem lfuEvict_pre (s : LFUState) (e : Key) (rest : List Key)
    (hwf : lfuWF s) (heq : bGet s.freq s.min_freq = e :: rest) :
    lfuPre (lfuEvictState s e rest) ∧
      (lfuEvictState s e rest).capacity = s.capacity ∧
      s.cache.length = (lfuEvictState s e rest).cache.length + 1 ∧
      (AL.get? s.cache e).map Prod.snd = some s.min_freq ∧
      AL.get? (lfuEvictState s e rest).cache e = none ∧
      (∀ x, x ≠ e → AL.get? (lfuEvictState s e rest).cache x = AL.get? s.cache x) := by
  obtain ⟨hn, hBn, hBnod, hCB, hBC, hF1, hMin, hLen⟩ := hwf
  have hbnod : ∀ g, (bGet s.freq g).Nodup := buckets_nodup_fun s.freq hBnod
  have hbcoh := buckets_coh_fun s.cache s.freq hBC
  have hemem : e ∈ bGet s.freq s.min_freq := by
    rw [heq]
    exact List.mem_cons_self _ _
  have hecoh : (AL.get? s.cache e).map Prod.snd = some s.min_freq :=
    hbcoh s.min_freq e hemem
  have hesome : (AL.get? s.cache e).isSome := by
    cases hge : AL.get? s.cache e with
    | none => rw [hge] at hecoh; simp at hecoh
    | some pr => simp
  have hrestnod : rest.Nodup ∧ e ∉ rest := by
    have := hbnod s.min_freq
    rw [heq, List.nodup_cons] at this
    exact ⟨this.2, this.1⟩
  set c1 := AL.del s.cache e with hc1
  set b1 := AL.set s.freq s.min_freq rest with hb1
  have hunfold : lfuEvictState s e rest = { s with cache := c1, freq := b1 } := rfl
  have hc1e : AL.get? c1 e = none := AL.get?_del_self _ _ hn
  have hc1ne : ∀ x, x ≠ e → AL.get? c1 x = AL.get? s.cache x :=
    fun x hx => AL.get?_del_ne _ _ _ hx
  have hb1min : bGet b1 s.min_freq = rest := bGet_set_self _ _ _
  have hb1g : ∀ g, g ≠ s.min_freq → bGet b1 g = bGet s.freq g :=
    fun g hg => bGet_set_ne _ _ _ _ hg
  have hb1n : (AL.keys b1).Nodup := AL.nodup_keys_set _ _ _ hBn
  have hc1n : (AL.keys c1).Nodup := AL.nodup_keys_del _ _ hn
  have hb1nod : ∀ g, (bGet b1 g).Nodup := by
    intro g
    by_cases hg : g = s.min_freq
    · rw [hg, hb1min]
      exact hrestnod.1
    · rw [hb1g g hg]
      exact hbnod g
  have hb1coh : ∀ g, ∀ k' ∈ bGet b1 g,
      (AL.get? c1 k').map Prod.snd = some g := by
    intro g k' hk'
    by_cases hg : g = s.min_freq
    · rw [hg, hb1min] at hk'
      have hold := hbcoh s.min_freq k' (by rw [heq]; exact List.mem_cons_of_mem _ hk')
      have hne : k' ≠ e := by
        intro he
        rw [he] at hk'
        exact hrestnod.2 hk'
      rw [hc1ne k' hne, hg]
      exact hold
    · rw [hb1g g hg] at hk'
      have hold := hbcoh g k' hk'
      have hne : k' ≠ e := by
        intro he
        rw [he] at hold
        rw [hecoh] at hold
        exact hg (Option.some.inj hold).symm
      rw [hc1ne k' hne]
      exact hold
  have hc1CB : ∀ p ∈ c1, p.1 ∈ bGet b1 p.2.2 := by
    intro p hp
    rw [AL.mem_del_iff _ _ _ hn] at hp
    have hold := hCB p hp.1
    by_cases hg : p.2.2 = s.min_freq
    · rw [hg] at hold ⊢
      rw [hb1min]
      rw [heq, List.mem_cons] at hold
      rcases hold with hold | hold
      · exact absurd hold hp.2
      · exact hold
    · rw [hb1g _ hg]
      exact hold
  have hc1F1 : ∀ p ∈ c1, 1 ≤ p.2.2 := by
    intro p hp
    rw [AL.mem_del_iff _ _ _ hn] at hp
    exact hF1 p hp.1
  refine ⟨?_, by rw [hunfold], ?_, hecoh, hc1e, hc1ne⟩
  · rw [hunfold]
    exact ⟨hc1n, hb1n, buckets_nodup_entries b1 hb1n hb1nod, hc1CB,
      buckets_coh_entries c1 b1 hb1n hb1coh, hc1F1⟩
  · show s.cache.length = c1.length + 1
    exact AL.length_del_of_isSome _ _ hesome

theorem lfuPut_eq_cap0 (s : LFUState) (k : Key) (v : Value)
    (hcap : s.capacity = 0) : lfuPut k v s = some s := by
  simp [lfuPut, hcap]

theorem lfuPut_eq_promote (s : LFUState) (k : Key) (v w : Value) (f : Nat)
    (hcap : s.capacity ≠ 0) (hm : AL.get? s.cache k = some (w, f)) :
    lfuPut k v s = some (lfuPromote k v f s) := by
  simp only [lfuPut, if_neg hcap, hm]

theorem lfuPut_eq_full (s : LFUState) (k : Key) (v : Value) (e : Key)
    (rest : List Key) (hcap : s.capacity ≠ 0) (hm : AL.get? s.cache k = none)
    (hfull : s.cache.length ≥ s.capacity)
    (heq : bGet s.freq s.min_freq = e :: rest) :
    lfuPut k v s = some (lfuInsertState (lfuEvictState s e rest) k v) := by
  simp only [lfuPut, if_neg hcap, hm]
  rw [if_pos hfull, heq]
  rfl

theorem lfuPut_eq_notfull (s : LFUState) (k : Key) (v : Value)
    (hcap : s.capacity ≠ 0) (hm : AL.get? s.cache k = none)
    (hfull : ¬s.cache.length ≥ s.capacity) :
    lfuPut k v s = some (lfuInsertState s k v) := by
  simp only [lfuPut, if_neg hcap, hm]
  rw [if_neg hfull]
  rfl

/-- `LFUCache.put` always succeeds on a well-formed state and preserves
well-formedness and the capacity. -/
theorem lfuPut_WF (s : LFUState) (k : Key) (v : Value) (hwf : lfuWF s) :
    ∃ t, lfuPut k v s = some t ∧ lfuWF t ∧ t.capacity = s.capacity := by
  obtain ⟨hn, hBn, hBnod, hCB, hBC, hF1, hMin, hLen⟩ := hwf
  have hwf : lfuWF s := ⟨hn, hBn, hBnod, hCB, hBC, hF1, hMin, hLen⟩
  by_cases hcap : s.capacity = 0
  · exact ⟨s, lfuPut_eq_cap0 s k v hcap, hwf, rfl⟩
  cases hm : AL.get? s.cache k with
  | some pr =>
    obtain ⟨w, f⟩ := pr
    have h := lfuPromote_WF s k v w f hwf hm
    exact ⟨_, lfuPut_eq_promote s k v w f hcap hm, h.1, h.2.1⟩
  | none =>
    by_cases hfull : s.cache.length ≥ s.capacity
    · have hCne : s.cache ≠ [] := by
        intro h
        rw [h] at hfull
        simp at hfull
        omega
      obtain ⟨hbne, hminle⟩ := hMin hCne
      obtain ⟨e, rest, heq⟩ : ∃ e rest, bGet s.freq s.min_freq = e :: rest := by
        cases hb : bGet s.freq s.min_freq with
        | nil => exact absurd hb hbne
        | cons e rest => exact ⟨e, rest, rfl⟩
      obtain ⟨hpre, hcapev, hlenev, hecoh, hc1e, hc1ne⟩ := lfuEvict_pre s e rest hwf heq
      have hke : k ≠ e := by
        intro h
        rw [← h, hm] at hecoh
        simp at hecoh
      have hmk1 : AL.get? (lfuEvictState s e rest).cache k = none := by
        rw [hc1ne k hke]
        exact hm
      have hlt : (lfuEvictState s e rest).cache.length <
          (lfuEvictState s e rest).capacity := by
        rw [hcapev]
        omega
      have hins := lfuInsert_WF (lfuEvictState s e rest) k v hpre hmk1 hlt
      refine ⟨_, lfuPut_eq_full s k v e rest hcap hm hfull heq, hins.1, ?_⟩
      rw [hins.2.1, hcapev]
    · have hpre : lfuPre s := ⟨hn, hBn, hBnod, hCB, hBC, hF1⟩
      have hlt : s.cache.length < s.capacity := by omega
      have hins := lfuInsert_WF s k v hpre hm hlt
      exact ⟨_, lfuPut_eq_notfull s k v hcap hm hfull, hins.1, hins.2.1⟩

/-- `LFUCache.get` preserves well-formedness and the capacity. -/
theorem lfuGet_WF (s : LFUState) (k : Key) (hwf : lfuWF s) :
    lfuWF (lfuGet k s).2 ∧ (lfuGet k s).2.capacity = s.capacity := by
  cases hm : AL.get? s.cache k with
  | none =>
    simp only [lfuGet, hm]
    refine ⟨hwf, ?_⟩
    simp
  | some pr =>
    obtain ⟨v, f⟩ := pr
    have h := lfuPromote_WF s k v v f hwf hm
    simp only [lfuGet, hm]
    refine ⟨h.1, ?_⟩
    simpa using h.2.1

/-- One operation of the common contract on an `LFUCache` succeeds and
preserves well-formedness and the capacity. -/
theorem lfuStep_WF (s : LFUState) (op : CacheOp) (hwf : lfuWF s) :
    ∃ t, lfuStep s op = some t ∧ lfuWF t ∧ t.capacity = s.capacity := by
  cases op with
  | has k => exact ⟨s, rfl, hwf, rfl⟩
  | get k => exact ⟨(lfuGet k s).2, rfl, (lfuGet_WF s k hwf).1, (lfuGet_WF s k hwf).2⟩
  | put k v r => exact lfuPut_WF s k v hwf

/-- A whole operation sequence on a well-formed `LFUCache` succeeds and
ends in a well-formed state with the same capacity. -/
theorem lfuRun_WF (ops : List CacheOp) (s : LFUState) (hwf : lfuWF s) :
    ∃ t, lfuRun ops s = some t ∧ lfuWF t ∧ t.capacity = s.capacity := by
  induction ops generalizing s with
  | nil => exact ⟨s, rfl, hwf, rfl⟩
  | cons op ops ih =>
    obtain ⟨t, hstep, hinv, hct⟩ := lfuStep_WF s op hwf
    obtain ⟨u, hrun, hinv', hcu⟩ := ih t hinv
    refine ⟨u, ?_, hinv', hct ▸ hcu⟩
    simp only [lfuRun, hstep]
    exact hrun

/-! ## The hybrid policy (`HybridCache`, `src/cache/manager.py`) -/

/-- Read `self.freq[k]` where `freq` is a `defaultdict(int)`: a missing key
reads as 0. -/
def fGet (fr : List (Key × Nat)) (k : Key) : Nat := (AL.get? fr k).getD 0

/-- State of `HybridCache`: the key→value store, the per-key frequency
counters, and the recency order (oldest first, as the `OrderedDict` key
order). -/
structure HybridState where
  capacity : Nat
  store : List (Key × Value)
  freq : List (Key × Nat)
  recency : List Key
  hits : Nat
  misses : Nat

/-- A fresh `HybridCache(capacity)`. -/
def hybridEmpty (c : Nat) : HybridState := ⟨c, [], [], [], 0, 0⟩

/-- `min(self.freq[k] for k in self.store.keys())` over a nonempty store
(0 for an empty store, where the source never evaluates it). -/
def hybridMinFreq (s : HybridState) : Nat :=
  match (AL.keys s.store).map (fGet s.freq) with
  | [] => 0
  | x :: xs => xs.foldl Nat.min x

/-- `[k for k in self.store.keys() if self.freq[k] == min_freq]`. -/
def hybridCandidates (s : HybridState) : List Key :=
  (AL.keys s.store).filter (fun k => fGet s.freq k = hybridMinFreq s)

/-- `HybridCache._evict_one`: nothing happens on an empty store; otherwise
the victim is the first key in recency order (oldest first) that belongs to
the minimum-frequency candidate set, and it is removed from the store, the
frequency table and the recency order.  `none` models the `NameError` when
the loop binds no victim (impossible in coherent states). -/
def hybridEvictOne (s : HybridState) : Option HybridState :=
  if s.store = [] then some s
  else
    match s.recency.find? (fun k => decide (k ∈ hybridCandidates s)) with
    | none => none
    | some victim =>
        some { s with store := AL.del s.store victim,
                      freq := AL.del s.freq victim,
                      recency := s.recency.erase victim }

/-- `HybridCache.get`: a miss counts and returns `None`; a hit counts,
increments the key's frequency, moves it to the newest recency position and
returns the stored value. -/
def hybridGet (k : Key) (s : HybridState) : Option Value × HybridState :=
  match AL.get? s.store k with
  | none => (none, { s with misses := s.misses + 1 })
  | some v =>
      (some v, { s with hits := s.hits + 1,
                        freq := AL.set s.freq k (fGet s.freq k + 1),
                        recency := s.recency.erase k ++ [k] })

/-- `HybridCache.put`: an existing key gets the new value, frequency + 1
and the newest recency position; a no-op at capacity zero for a new key;
otherwise a new key triggers one eviction when `len(store) >= capacity`,
and is then inserted with frequency 1 at the newest recency position. -/
def hybridPut (k : Key) (v : Value) (s : HybridState) : Option HybridState :=
  if (AL.get? s.store k).isSome then
    some { s with store := AL.set s.store k v,
                  freq := AL.set s.freq k (fGet s.freq k + 1),
                  recency := s.recency.erase k ++ [k] }
  else if s.capacity = 0 then some s
  else
    let step1 : Option HybridState :=
      if s.store.length ≥ s.capacity then hybridEvictOne s else some s
    step1.map fun s1 =>
      { s1 with store := AL.set s1.store k v,
                freq := AL.set s1.freq k 1,
                recency := odAdd s1.recency k }

/-- `HybridCache.contains`. -/
def hybridContains (k : Key) (s : HybridState) : Bool :=
  (AL.get? s.store k).isSome

/-- One operation of the common contract on a `HybridCache`. -/
def hybridStep (s : HybridState) : CacheOp → Option HybridState
  | .get k => some (hybridGet k s).2
  | .put k v _ => hybridPut k v s
  | .has _ => some s

/-- A sequence of operations on a `HybridCache`. -/
def hybridRun : List CacheOp → HybridState → Option HybridState
  | [], s => some s
  | op :: ops, s =>
      match hybridStep s op with
      | none => none
      | some t => hybridRun ops t

/-- Invariant of a `HybridCache`: unique store keys, duplicate-free recency
order listing exactly the stored keys, size within capacity. -/
def hybridInv (s : HybridState) : Prop :=
  (AL.keys s.store).Nodup ∧
  s.recency.Nodup ∧
  (∀ k ∈ s.recency, k ∈ AL.keys s.store) ∧
  (∀ k ∈ AL.keys s.store, k ∈ s.recency) ∧
  s.store.length ≤ s.capacity

theorem mem_keys_del_iff {α : Type} (l : List (Nat × α)) (q x : Nat)
    (hn : (AL.keys l).Nodup) :
    x ∈ AL.keys (AL.del l q) ↔ x ∈ AL.keys l ∧ x ≠ q := by
  constructor
  · intro hx
    by_cases hxq : x = q
    · subst hxq
      exact absurd hx (AL.not_mem_keys_del_self l x hn)
    · refine ⟨?_, hxq⟩
      have h1 := (AL.get?_isSome_iff_mem_keys _ x).2 hx
      rw [AL.get?_del_ne l q x hxq] at h1
      exact (AL.get?_isSome_iff_mem_keys _ x).1 h1
  · rintro ⟨hx, hxq⟩
    have h1 := (AL.get?_isSome_iff_mem_keys l x).2 hx
    rw [← AL.get?_del_ne l q x hxq] at h1
    exact (AL.get?_isSome_iff_mem_keys _ x).1 h1

theorem find?_split {α : Type} (l : List α) (p : α → Bool) (a : α)
    (h : l.find? p = some a) :
    ∃ l₁ l₂, l = l₁ ++ a :: l₂ ∧ ∀ x ∈ l₁, p x = false := by
  induction l with
  | nil => simp [List.find?] at h
  | cons b rest ih =>
    by_cases hb : p b
    · rw [List.find?_cons_of_pos _ hb] at h
      have hba : b = a := Option.some.inj h
      subst hba
      exact ⟨[], rest, rfl, by simp⟩
    · rw [List.find?_cons_of_neg _ hb] at h
      obtain ⟨l₁, l₂, heq, hall⟩ := ih h
      refine ⟨b :: l₁, l₂, by rw [heq]; rfl, ?_⟩
      intro x hx
      rcases List.mem_cons.1 hx with hx | hx
      · subst hx
        simpa using hb
      · exact hall x hx

theorem foldl_min_facts (xs : List Nat) (x : Nat) :
    (xs.foldl Nat.min x ≤ x ∧ ∀ y ∈ xs, xs.foldl Nat.min x ≤ y) ∧
      (xs.foldl Nat.min x = x ∨ xs.foldl Nat.min x ∈ xs) := by
  induction xs generalizing x with
  | nil => simp
  | cons y ys ih =>
    simp only [List.foldl_cons]
    obtain ⟨⟨hle, hall⟩, hmem⟩ := ih (Nat.min x y)
    refine ⟨⟨le_trans hle (Nat.min_le_left x y), ?_⟩, ?_⟩
    · intro z hz
      rcases List.mem_cons.1 hz with hz | hz
      · rw [hz]
        exact le_trans hle (Nat.min_le_right x y)
      · exact hall z hz
    · rcases hmem with hm | hm
      · rcases Nat.le_total x y with hxy | hxy
        · left
          rw [hm]
          show min x y = x
          exact min_eq_left hxy
        · right
          have hmin : Nat.min x y = y := by
            show min x y = y
            exact min_eq_right hxy
          rw [hm, hmin]
          exact List.mem_cons_self _ _
      · right
        exact List.mem_cons_of_mem _ hm

/-- For a nonempty store, `hybridMinFreq` lower-bounds every stored key's
frequency and is attained by some stored key. -/
theorem hybridMinFreq_facts (s : HybridState) (hne : s.store ≠ []) :
    (∀ x ∈ AL.keys s.store, hybridMinFreq s ≤ fGet s.freq x) ∧
      ∃ k ∈ AL.keys s.store, fGet s.freq k = hybridMinFreq s := by
  cases hs : s.store with
  | nil => exact absurd hs hne
  | cons p rest =>
    have hmf : hybridMinFreq s =
        ((AL.keys rest).map (fGet s.freq)).foldl Nat.min (fGet s.freq p.1) := by
      unfold hybridMinFreq
      rw [hs, AL.keys_cons, List.map_cons]
    obtain ⟨⟨hle, hall⟩, hmem⟩ :=
      foldl_min_facts ((AL.keys rest).map (fGet s.freq)) (fGet s.freq p.1)
    constructor
    · intro x hx
      rw [AL.keys_cons, List.mem_cons] at hx
      rcases hx with hx | hx
      · rw [hmf, hx]
        exact hle
      · rw [hmf]
        exact hall _ (List.mem_map_of_mem _ hx)
    · rcases hmem with hm | hm
      · refine ⟨p.1, ?_, ?_⟩
        · rw [AL.keys_cons]
          exact List.mem_cons_self _ _
        · rw [hmf]
          exact hm.symm
      · obtain ⟨k, hk, hfk⟩ := List.mem_map.1 hm
        refine ⟨k, ?_, ?_⟩
        · rw [AL.keys_cons]
          exact List.mem_cons_of_mem _ hk
        · rw [hmf]
          exact hfk

/-- `_evict_one` on a coherent, nonempty state: it succeeds, the victim is a
stored key of globally minimum frequency, and no key preceding it in the
recency order (oldest first) is a minimum-frequency candidate. -/
theorem hybridEvict_facts (s : HybridState) (h : hybridInv s)
    (hne : s.store ≠ []) :
    ∃ victim l₁ l₂,
      hybridEvictOne s =
        some { s with store := AL.del s.store victim,
                      freq := AL.del s.freq victim,
                      recency := s.recency.erase victim } ∧
      victim ∈ AL.keys s.store ∧
      fGet s.freq victim = hybridMinFreq s ∧
      (∀ x ∈ AL.keys s.store, hybridMinFreq s ≤ fGet s.freq x) ∧
      s.recency = l₁ ++ victim :: l₂ ∧
      (∀ x ∈ l₁, x ∉ hybridCandidates s) := by
  obtain ⟨hn, hrn, hrs, hsr, hlen⟩ := h
  obtain ⟨hlow, k0, hk0s, hk0f⟩ := hybridMinFreq_facts s hne
  have hk0c : k0 ∈ hybridCandidates s := by
    unfold hybridCandidates
    rw [List.mem_filter]
    exact ⟨hk0s, by simp [hk0f]⟩
  have hk0r : k0 ∈ s.recency := hsr k0 hk0s
  have hfind : (s.recency.find? (fun k => decide (k ∈ hybridCandidates s))).isSome := by
    rw [List.find?_isSome]
    exact ⟨k0, hk0r, by simp [hk0c]⟩
  obtain ⟨victim, hv⟩ := Option.isSome_iff_exists.1 hfind
  have hvp := List.find?_some hv
  have hvc : victim ∈ hybridCandidates s := of_decide_eq_true hvp
  have hvs : victim ∈ AL.keys s.store := (List.mem_filter.1 hvc).1
  have hvf : fGet s.freq victim = hybridMinFreq s := by
    have h2 := (List.mem_filter.1 hvc).2
    simpa using h2
  obtain ⟨l₁, l₂, hsplit, hall⟩ := find?_split _ _ _ hv
  refine ⟨victim, l₁, l₂, ?_, hvs, hvf, hlow, hsplit, ?_⟩
  · unfold hybridEvictOne
    rw [if_neg hne, hv]
  · intro x hx hxc
    have h3 := hall x hx
    simp only [decide_eq_false_iff_not] at h3
    exact h3 hxc

/-- Inserting a fresh key into a below-capacity coherent hybrid state keeps
the invariant and the capacity. -/
theorem hybridInsert_inv (s1 : HybridState) (k : Key) (v : Value)
    (hn1 : (AL.keys s1.store).Nodup) (hrn1 : s1.recency.Nodup)
    (hrs1 : ∀ x ∈ s1.recency, x ∈ AL.keys s1.store)
    (hsr1 : ∀ x ∈ AL.keys s1.store, x ∈ s1.recency)
    (hm1 : AL.get? s1.store k = none)
    (hlt : s1.store.length < s1.capacity) :
    hybridInv { s1 with store := AL.set s1.store k v,
                        freq := AL.set s1.freq k 1,
                        recency := odAdd s1.recency k } := by
  have hkn : k ∉ AL.keys s1.store := AL.not_mem_keys_of_get?_none _ _ hm1
  have hkr : k ∉ s1.recency := fun hx => hkn (hrs1 k hx)
  have hadd : odAdd s1.recency k = s1.recency ++ [k] := by
    unfold odAdd
    rw [if_neg hkr]
  have hkeys : AL.keys (AL.set s1.store k v) = AL.keys s1.store ++ [k] :=
    AL.keys_set_of_none _ _ _ hm1
  refine ⟨?_, ?_, ?_, ?_, ?_⟩
  · show (AL.keys (AL.set s1.store k v)).Nodup
    rw [hkeys, List.nodup_append]
    refine ⟨hn1, List.nodup_singleton k, ?_⟩
    intro a ha hb
    simp only [List.mem_singleton] at hb
    subst hb
    exact hkn ha
  · show (odAdd s1.recency k).Nodup
    rw [hadd, List.nodup_append]
    refine ⟨hrn1, List.nodup_singleton k, ?_⟩
    intro a ha hb
    simp only [List.mem_singleton] at hb
    subst hb
    exact hkr ha
  · show ∀ x ∈ odAdd s1.recency k, x ∈ AL.keys (AL.set s1.store k v)
    intro x hx
    rw [hadd, List.mem_append, List.mem_singleton] at hx
    rw [hkeys, List.mem_append, List.mem_singleton]
    rcases hx with hx | hx
    · exact Or.inl (hrs1 x hx)
    · exact Or.inr hx
  · show ∀ x ∈ AL.keys (AL.set s1.store k v), x ∈ odAdd s1.recency k
    intro x hx
    rw [hkeys, List.mem_append, List.mem_singleton] at hx
    rw [hadd, List.mem_append, List.mem_singleton]
    rcases hx with hx | hx
    · exact Or.inl (hsr1 x hx)
    · exact Or.inr hx
  · show (AL.set s1.store k v).length ≤ s1.capacity
    rw [AL.length_set_of_none _ _ _ hm1]
    omega

/-- Every `HybridCache` operation on an invariant-satisfying state succeeds
and preserves the invariant and the capacity. -/
theorem hybridStep_inv (s : HybridState) (op : CacheOp) (h : hybridInv s) :
    ∃ t, hybridStep s op = some t ∧ hybridInv t ∧ t.capacity = s.capacity := by
  obtain ⟨hn, hrn, hrs, hsr, hlen⟩ := h
  cases op with
  | has k => exact ⟨s, rfl, ⟨hn, hrn, hrs, hsr, hlen⟩, rfl⟩
  | get k =>
    cases hm : AL.get? s.store k with
    | none =>
      refine ⟨_, rfl, ?_, ?_⟩
      · show hybridInv (hybridGet k s).2
        simp only [hybridGet, hm]
        exact ⟨hn, hrn, hrs, hsr, hlen⟩
      · simp [hybridGet, hm]
    | some v =>
      have hks : k ∈ AL.keys s.store :=
        (AL.get?_isSome_iff_mem_keys _ _).1 (by simp [hm])
      have hkr : k ∈ s.recency := hsr k hks
      have hrn' : (s.recency.erase k ++ [k]).Nodup := by
        rw [List.nodup_append]
        refine ⟨hrn.erase k, List.nodup_singleton k, ?_⟩
        intro a ha hb
        simp only [List.mem_singleton] at hb
        subst hb
        exact ((hrn.mem_erase_iff).1 ha).1 rfl
      have hmem' : ∀ x, x ∈ s.recency.erase k ++ [k] ↔ x ∈ s.recency := by
        intro x
        rw [List.mem_append, List.mem_singleton]
        constructor
        · rintro (hx | hx)
          · exact List.mem_of_mem_erase hx
          · rw [hx]
            exact hkr
        · intro hx
          by_cases hxk : x = k
          · exact Or.inr hxk
          · exact Or.inl ((List.mem_erase_of_ne hxk).mpr hx)
      refine ⟨_, rfl, ?_, ?_⟩
      · show hybridInv (hybridGet k s).2
        simp only [hybridGet, hm]
        exact ⟨hn, hrn', fun x hx => hrs x ((hmem' x).1 hx),
          fun x hx => (hmem' x).2 (hsr x hx), hlen⟩
      · simp [hybridGet, hm]
  | put k v r =>
    simp only [hybridStep]
    cases hm : AL.get? s.store k with
    | some w =>
      have hks : k ∈ AL.keys s.store :=
        (AL.get?_isSome_iff_mem_keys _ _).1 (by simp [hm])
      have hkr : k ∈ s.recency := hsr k hks
      have hrn' : (s.recency.erase k ++ [k]).Nodup := by
        rw [List.nodup_append]
        refine ⟨hrn.erase k, List.nodup_singleton k, ?_⟩
        intro a ha hb
        simp only [List.mem_singleton] at hb
        subst hb
        exact ((hrn.mem_erase_iff).1 ha).1 rfl
      have hmem' : ∀ x, x ∈ s.recency.erase k ++ [k] ↔ x ∈ s.recency := by
        intro x
        rw [List.mem_append, List.mem_singleton]
        constructor
        · rintro (hx | hx)
          · exact List.mem_of_mem_erase hx
          · rw [hx]
            exact hkr
        · intro hx
          by_cases hxk : x = k
          · exact Or.inr hxk
          · exact Or.inl ((List.mem_erase_of_ne hxk).mpr hx)
      have hkeys : AL.keys (AL.set s.store k v) = AL.keys s.store :=
        AL.keys_set_of_isSome _ _ _ (by simp [hm])
      have hlen' : (AL.set s.store k v).length = s.store.length :=
        AL.length_set_of_isSome _ _ _ (by simp [hm])
      refine ⟨{ s with store := AL.set s.store k v,
                       freq := AL.set s.freq k (fGet s.freq k + 1),
                       recency := s.recency.erase k ++ [k] },
        by simp [hybridPut, hm], ?_, rfl⟩
      refine ⟨?_, hrn', ?_, ?_, ?_⟩
      · show (AL.keys (AL.set s.store k v)).Nodup
        rw [hkeys]
        exact hn
      · show ∀ x ∈ s.recency.erase k ++ [k], x ∈ AL.keys (AL.set s.store k v)
        intro x hx
        rw [hkeys]
        exact hrs x ((hmem' x).1 hx)
      · show ∀ x ∈ AL.keys (AL.set s.store k v), x ∈ s.recency.erase k ++ [k]
        intro x hx
        rw [hkeys] at hx
        exact (hmem' x).2 (hsr x hx)
      · show (AL.set s.store k v).length ≤ s.capacity
        rw [hlen']
        exact hlen
    | none =>
      by_cases hcap : s.capacity = 0
      · refine ⟨s, ?_, ⟨hn, hrn, hrs, hsr, hlen⟩, rfl⟩
        simp [hybridPut, hm, hcap]
      by_cases hfull : s.store.length ≥ s.capacity
      · have hsne : s.store ≠ [] := by
          intro hnil
          rw [hnil] at hfull
          simp at hfull
          omega
        obtain ⟨victim, l₁, l₂, hev, hvs, hvf, hlow, hsplit, hnotc⟩ :=
          hybridEvict_facts s ⟨hn, hrn, hrs, hsr, hlen⟩ hsne
        have hvsome : (AL.get? s.store victim).isSome :=
          (AL.get?_isSome_iff_mem_keys _ _).2 hvs
        have hkv : k ≠ victim := by
          intro he
          rw [he] at hm
          rw [AL.get?_eq_none_iff] at hm
          exact hm hvs
        set s1 : HybridState :=
          { s with store := AL.del s.store victim,
                   freq := AL.del s.freq victim,
                   recency := s.recency.erase victim } with hs1
        have hn1 : (AL.keys s1.store).Nodup := AL.nodup_keys_del _ _ hn
        have hrn1 : s1.recency.Nodup := hrn.erase victim
        have hrs1 : ∀ x ∈ s1.recency, x ∈ AL.keys s1.store := by
          intro x hx
          have h2 := (hrn.mem_erase_iff).1 hx
          rw [mem_keys_del_iff _ _ _ hn]
          exact ⟨hrs x h2.2, h2.1⟩
        have hsr1 : ∀ x ∈ AL.keys s1.store, x ∈ s1.recency := by
          intro x hx
          rw [mem_keys_del_iff _ _ _ hn] at hx
          exact (List.mem_erase_of_ne hx.2).mpr (hsr x hx.1)
        have hm1 : AL.get? s1.store k = none := by
          show AL.get? (AL.del s.store victim) k = none
          rw [AL.get?_del_ne _ _ _ hkv]
          exact hm
        have hlt : s1.store.length < s1.capacity := by
          show (AL.del s.store victim).length < s.capacity
          have h2 := AL.length_del_of_isSome s.store victim hvsome
          omega
        have hins := hybridInsert_inv s1 k v hn1 hrn1 hrs1 hsr1 hm1 hlt
        refine ⟨_, ?_, hins, rfl⟩
        simp only [hybridPut, hm]
        rw [if_neg (by simp), if_neg hcap, if_pos hfull, hev]
        rfl
      · have hins := hybridInsert_inv s k v hn hrn hrs hsr hm (by omega)
        refine ⟨_, ?_, hins, rfl⟩
        simp only [hybridPut, hm]
        rw [if_neg (by simp), if_neg hcap, if_neg hfull]
        rfl

/-- A whole operation sequence on an invariant-satisfying `HybridCache`
succeeds and ends in an invariant-satisfying state with the same capacity. -/
theorem hybridRun_inv (ops : List CacheOp) (s : HybridState) (h : hybridInv s) :
    ∃ t, hybridRun ops s = some t ∧ hybridInv t ∧ t.capacity = s.capacity := by
  induction ops generalizing s with
  | nil => exact ⟨s, rfl, h, rfl⟩
  | cons op ops ih =>
    obtain ⟨t, hstep, hinv, hct⟩ := hybridStep_inv s op h
    obtain ⟨u, hrun, hinv', hcu⟩ := ih t hinv
    refine ⟨u, ?_, hinv', hct ▸ hcu⟩
    simp only [hybridRun, hstep]
    exact hrun

/-- After promoting a cached key `k` of frequency `f`, `min_freq` is
incremented exactly when the promotion emptied the minimum-frequency
bucket, i.e. when `k` was its only member; otherwise it is unchanged. -/
theorem lfuPromote_min_freq (s : LFUState) (k : Key) (v w : Value) (f : Nat)
    (hwf : lfuWF s) (hm : AL.get? s.cache k = some (w, f)) :
    ((lfuPromote k v f s).min_freq = s.min_freq + 1 ∧ f = s.min_freq ∧
        (bGet s.freq s.min_freq).erase k = []) ∨
      ((lfuPromote k v f s).min_freq = s.min_freq ∧
        (f ≠ s.min_freq ∨ (bGet s.freq s.min_freq).erase k ≠ [])) := by
  obtain ⟨hn, hBn, hBnod, hCB, hBC, hF1, hMin, hLen⟩ := hwf
  have hCne : s.cache ≠ [] := by
    intro h
    rw [h] at hm
    simp [AL.get?] at hm
  obtain ⟨hbne, hminle⟩ := hMin hCne
  have hkmem : (k, (w, f)) ∈ s.cache := AL.get?_mem _ _ _ hm
  have hmf : s.min_freq ≤ f := hminle (k, (w, f)) hkmem
  set b1 := AL.set s.freq f ((bGet s.freq f).erase k) with hb1
  set b2 := AL.set b1 (f + 1) (odAdd (bGet b1 (f + 1)) k) with hb2
  have hmf1 : s.min_freq ≠ f + 1 := by omega
  have hme : (lfuPromote k v f s).min_freq =
      if bGet b2 s.min_freq = [] then s.min_freq + 1 else s.min_freq := rfl
  by_cases hbe : bGet b2 s.min_freq = []
  · left
    have hfm : f = s.min_freq := by
      by_contra hfm
      have heq : bGet b2 s.min_freq = bGet s.freq s.min_freq := by
        rw [bGet_set_ne _ _ _ _ hmf1, bGet_set_ne _ _ _ _ (fun he => hfm he.symm)]
      rw [heq] at hbe
      exact hbne hbe
    refine ⟨by rw [hme, if_pos hbe], hfm, ?_⟩
    have heq : bGet b2 s.min_freq = (bGet s.freq s.min_freq).erase k := by
      rw [bGet_set_ne _ _ _ _ hmf1, ← hfm, bGet_set_self, hfm]
    rw [← heq]
    exact hbe
  · right
    refine ⟨by rw [hme, if_neg hbe], ?_⟩
    by_cases hfm : f = s.min_freq
    · right
      have heq : bGet b2 s.min_freq = (bGet s.freq s.min_freq).erase k := by
        rw [bGet_set_ne _ _ _ _ hmf1, ← hfm, bGet_set_self, hfm]
      rw [← heq]
      exact hbe
    · exact Or.inl hfm

instance (s : LFUState) : Decidable (lfuWF s) := by
  unfold lfuWF
  infer_instance

instance (s : HybridState) : Decidable (hybridInv s) := by
  unfold hybridInv
  infer_instance

instance (s : LRUState) : Decidable (lruInv s) := by
  unfold lruInv
  infer_instance

/-! ## Claims about the eviction policies -/

/-- C1 (counterexample): the claim says a zero-capacity `put` never fails,
but `LRUCache.put` of a new key at capacity 0 reaches
`popitem(last=False)` on an empty `OrderedDict`, which raises `KeyError`
(modelled as `none`). -/
theorem C1_counterexample : lruPut 1 10 (lruEmpty 0) = none := rfl

/-- C1 (amended): with capacity 0, `put` is a failure-free no-op only for
LFU and HYBRID (which guard `capacity == 0`), and for those two policies
nothing is ever stored and every get/contains reports absence after any
operation sequence; for LRU, FIFO and RANDOM, `put` of a new key at
capacity 0 raises (`KeyError` from `popitem` / `IndexError` from
`random.choice`). -/
theorem C1_amended (k : Key) (v : Value) (r : Nat) (ops : List CacheOp) :
    lruPut k v (lruEmpty 0) = none ∧
    fifoPut k v (fifoEmpty 0) = none ∧
    randPut r k v (randEmpty 0) = none ∧
    (∃ t, lfuRun ops (lfuEmpty 0) = some t ∧ t.cache = [] ∧
      lfuPut k v t = some t ∧ (lfuGet k t).1 = none ∧
      lfuContains k t = false) ∧
    (∃ t, hybridRun ops (hybridEmpty 0) = some t ∧ t.store = [] ∧
      hybridPut k v t = some t ∧ (hybridGet k t).1 = none ∧
      hybridContains k t = false) := by
  refine ⟨rfl, rfl, rfl, ?_, ?_⟩
  · have hwf0 : lfuWF (lfuEmpty 0) := by decide
    obtain ⟨t, hrun, hwf, hcap⟩ := lfuRun_WF ops (lfuEmpty 0) hwf0
    obtain ⟨-, -, -, -, -, -, -, hlen⟩ := hwf
    have hcap0 : t.capacity = 0 := hcap
    have htc : t.cache = [] := by
      rw [← List.length_eq_zero]
      omega
    refine ⟨t, hrun, htc, ?_, ?_, ?_⟩
    · simp [lfuPut, hcap0]
    · simp [lfuGet, htc, AL.get?]
    · simp [lfuContains, htc, AL.get?]
  · have hinv0 : hybridInv (hybridEmpty 0) := by decide
    obtain ⟨t, hrun, hinv, hcap⟩ := hybridRun_inv ops (hybridEmpty 0) hinv0
    obtain ⟨-, -, -, -, hlen⟩ := hinv
    have hcap0 : t.capacity = 0 := hcap
    have hts : t.store = [] := by
      rw [← List.length_eq_zero]
      omega
    refine ⟨t, hrun, hts, ?_, ?_, ?_⟩
    · simp [hybridPut, hts, AL.get?, hcap0]
    · simp [hybridGet, hts, AL.get?]
    · simp [hybridContains, hts, AL.get?]

/-- C2: for every eviction policy with configured capacity `C ≥ 1`, any
finite sequence of get/put/contains operations from the empty cache runs
without error, the number of live entries never exceeds `C`, and each key
is present at most once. -/
theorem C2_capacity_invariant (C : Nat) (hC : 1 ≤ C) :
    (∀ ops : List CacheOp, ∃ t, lruRun ops (lruEmpty C) = some t ∧
      t.cache.length ≤ C ∧ (AL.keys t.cache).Nodup) ∧
    (∀ ops : List CacheOp, ∃ t, lfuRun ops (lfuEmpty C) = some t ∧
      t.cache.length ≤ C ∧ (AL.keys t.cache).Nodup) ∧
    (∀ ops : List CacheOp, ∃ t, fifoRun ops (fifoEmpty C) = some t ∧
      t.cache.length ≤ C ∧ (AL.keys t.cache).Nodup) ∧
    (∀ ops : List CacheOp, ∃ t, randRun ops (randEmpty C) = some t ∧
      t.cache.length ≤ C ∧ (AL.keys t.cache).Nodup) ∧
    (∀ ops : List CacheOp, ∃ t, hybridRun ops (hybridEmpty C) = some t ∧
      t.store.length ≤ C ∧ (AL.keys t.store).Nodup) := by
  refine ⟨?_, ?_, ?_, ?_, ?_⟩
  · intro ops
    obtain ⟨t, hrun, hinv, hcap⟩ := lruRun_inv ops (lruEmpty C)
      ⟨by simp [lruEmpty, AL.keys], by simp [lruEmpty], hC⟩
    have hc2 : t.capacity = C := hcap
    refine ⟨t, hrun, ?_, hinv.1⟩
    have := hinv.2.1
    omega
  · intro ops
    have hwf0 : lfuWF (lfuEmpty C) := by
      refine ⟨by simp [lfuEmpty, AL.keys], by simp [lfuEmpty, AL.keys],
        ?_, ?_, ?_, ?_, ?_, by simp [lfuEmpty]⟩
      · intro q hq
        simp [lfuEmpty] at hq
      · intro p hp
        simp [lfuEmpty] at hp
      · intro q hq
        simp [lfuEmpty] at hq
      · intro p hp
        simp [lfuEmpty] at hp
      · intro hne
        simp [lfuEmpty] at hne
    obtain ⟨t, hrun, hwf, hcap⟩ := lfuRun_WF ops (lfuEmpty C) hwf0
    obtain ⟨hn, -, -, -, -, -, -, hlen⟩ := hwf
    have hc2 : t.capacity = C := hcap
    refine ⟨t, hrun, by omega, hn⟩
  · intro ops
    obtain ⟨t, hrun, hinv, hcap⟩ := fifoRun_inv ops (fifoEmpty C)
      ⟨by simp [fifoEmpty, AL.keys], by simp [fifoEmpty], hC⟩
    have hc2 : t.capacity = C := hcap
    refine ⟨t, hrun, ?_, hinv.1⟩
    have := hinv.2.1
    omega
  · intro ops
    obtain ⟨t, hrun, hinv, hcap⟩ := randRun_inv ops (randEmpty C)
      ⟨by simp [randEmpty, AL.keys], by simp [randEmpty], hC⟩
    have hc2 : t.capacity = C := hcap
    refine ⟨t, hrun, ?_, hinv.1⟩
    have := hinv.2.1
    omega
  · intro ops
    have hinv0 : hybridInv (hybridEmpty C) := by
      refine ⟨by simp [hybridEmpty, AL.keys], by simp [hybridEmpty], ?_, ?_,
        by simp [hybridEmpty]⟩
      · intro x hx
        simp [hybridEmpty] at hx
      · intro x hx
        simp [hybridEmpty, AL.keys] at hx
    obtain ⟨t, hrun, hinv, hcap⟩ := hybridRun_inv ops (hybridEmpty C) hinv0
    obtain ⟨hn, -, -, -, hlen⟩ := hinv
    have hc2 : t.capacity = C := hcap
    refine ⟨t, hrun, by omega, hn⟩

/-- Witness for C2 at capacity 1 with a concrete operation sequence. -/
theorem C2_capacity_invariant_witness :
    (∃ t, lruRun [CacheOp.put 1 10 0, CacheOp.put 2 20 0, CacheOp.get 2]
      (lruEmpty 1) = some t ∧ t.cache.length ≤ 1 ∧ (AL.keys t.cache).Nodup) ∧
    (∃ t, lfuRun [CacheOp.put 1 10 0, CacheOp.put 2 20 0, CacheOp.get 2]
      (lfuEmpty 1) = some t ∧ t.cache.length ≤ 1 ∧ (AL.keys t.cache).Nodup) ∧
    (∃ t, hybridRun [CacheOp.put 1 10 0, CacheOp.put 2 20 0, CacheOp.get 2]
      (hybridEmpty 1) = some t ∧ t.store.length ≤ 1 ∧ (AL.keys t.store).Nodup) :=
  ⟨(C2_capacity_invariant 1 (by decide)).1 _,
   (C2_capacity_invariant 1 (by decide)).2.1 _,
   (C2_capacity_invariant 1 (by decide)).2.2.2.2 _⟩

/-- C4: in `LFUCache`, when `put` inserts a new key into a cache at
capacity, the minimum-frequency bucket splits as `e :: rest` (its first
element `e` being the member that entered the bucket earliest, since keys
are always appended at the bucket's end), `e` is the evicted key, it is
gone afterwards, its stored frequency is the tracked `min_freq`, which
lower-bounds every cached frequency; moreover any promotion increments
`min_freq` exactly when it empties the minimum-frequency bucket. -/
theorem C4_lfu_eviction (s : LFUState) (k : Key) (v : Value)
    (hwf : lfuWF s) (hcap : s.capacity ≠ 0) (hm : AL.get? s.cache k = none)
    (hfull : s.cache.length ≥ s.capacity) :
    ∃ e rest,
      bGet s.freq s.min_freq = e :: rest ∧
      lfuPut k v s = some (lfuInsertState (lfuEvictState s e rest) k v) ∧
      AL.get? (lfuEvictState s e rest).cache e = none ∧
      (AL.get? s.cache e).map Prod.snd = some s.min_freq ∧
      (∀ p ∈ s.cache, s.min_freq ≤ p.2.2) ∧
      (∀ k' w' f, AL.get? s.cache k' = some (w', f) →
        ((lfuPromote k' v f s).min_freq = s.min_freq + 1 ∧ f = s.min_freq ∧
            (bGet s.freq s.min_freq).erase k' = []) ∨
          ((lfuPromote k' v f s).min_freq = s.min_freq ∧
            (f ≠ s.min_freq ∨ (bGet s.freq s.min_freq).erase k' ≠ []))) := by
  have hwf' := hwf
  obtain ⟨hn, hBn, hBnod, hCB, hBC, hF1, hMin, hLen⟩ := hwf'
  have hCne : s.cache ≠ [] := by
    intro h
    rw [h] at hfull
    simp at hfull
    omega
  obtain ⟨hbne, hminle⟩ := hMin hCne
  obtain ⟨e, rest, heq⟩ : ∃ e rest, bGet s.freq s.min_freq = e :: rest := by
    cases hb : bGet s.freq s.min_freq with
    | nil => exact absurd hb hbne
    | cons e rest => exact ⟨e, rest, rfl⟩
  obtain ⟨hpre, hcapev, hlenev, hecoh, hc1e, hc1ne⟩ := lfuEvict_pre s e rest hwf heq
  exact ⟨e, rest, heq, lfuPut_eq_full s k v e rest hcap hm hfull heq, hc1e,
    hecoh, hminle, fun k' w' f hm' => lfuPromote_min_freq s k' v w' f hwf hm'⟩

/-- Witness for C4 on a concrete full capacity-1 LFU state. -/
theorem C4_lfu_eviction_witness :
    ∃ e rest,
      bGet (⟨1, [(1, (10, 1))], [(1, [1])], 1, 0, 0⟩ : LFUState).freq
          (⟨1, [(1, (10, 1))], [(1, [1])], 1, 0, 0⟩ : LFUState).min_freq =
        e :: rest ∧
      lfuPut 2 20 ⟨1, [(1, (10, 1))], [(1, [1])], 1, 0, 0⟩ =
        some (lfuInsertState
          (lfuEvictState ⟨1, [(1, (10, 1))], [(1, [1])], 1, 0, 0⟩ e rest) 2 20) := by
  obtain ⟨e, rest, h1, h2, -, -, -, -⟩ :=
    C4_lfu_eviction ⟨1, [(1, (10, 1))], [(1, [1])], 1, 0, 0⟩ 2 20
      (by decide) (by decide) (by decide) (by decide)
  exact ⟨e, rest, h1, h2⟩

/-- C5: in `HybridCache`, eviction removes a stored key of minimum
frequency, and among the minimum-frequency keys it is the least recently
used one (every other minimum-frequency key sits strictly later in the
oldest-first recency order); concretely, with capacity 2, putting 0 then 1
then 2 evicts 0 and keeps `[1, 2]`. -/
theorem C5_hybrid_tiebreak (s : HybridState) (h : hybridInv s)
    (hne : s.store ≠ []) :
    (∃ victim l₁ l₂,
      hybridEvictOne s =
        some { s with store := AL.del s.store victim,
                      freq := AL.del s.freq victim,
                      recency := s.recency.erase victim } ∧
      victim ∈ AL.keys s.store ∧
      (∀ x ∈ AL.keys s.store, fGet s.freq victim ≤ fGet s.freq x) ∧
      s.recency = l₁ ++ victim :: l₂ ∧
      (∀ x ∈ AL.keys s.store,
        fGet s.freq x = fGet s.freq victim → x ≠ victim → x ∈ l₂)) ∧
    (hybridRun [CacheOp.put 0 5 0, CacheOp.put 1 6 0, CacheOp.put 2 7 0]
        (hybridEmpty 2)).map (fun t => (AL.keys t.store, hybridContains 0 t)) =
      some ([1, 2], false) := by
  constructor
  · obtain ⟨victim, l₁, l₂, hev, hvs, hvf, hlow, hsplit, hnotc⟩ :=
      hybridEvict_facts s h hne
    refine ⟨victim, l₁, l₂, hev, hvs, ?_, hsplit, ?_⟩
    · intro x hx
      rw [hvf]
      exact hlow x hx
    · intro x hx hfx hxv
      have hxc : x ∈ hybridCandidates s := by
        unfold hybridCandidates
        rw [List.mem_filter]
        refine ⟨hx, ?_⟩
        rw [hfx, hvf]
        simp
    
      have hxr : x ∈ s.recency := h.2.2.2.1 x hx
      rw [hsplit, List.mem_append, List.mem_cons] at hxr
      rcases hxr with hxr | hxr | hxr
      · exact absurd hxc (hnotc x hxr)
      · exact absurd hxr hxv
      · exact hxr
  · decide

/-- Witness for C5 on a concrete two-entry hybrid state. -/
theorem C5_hybrid_tiebreak_witness :
    ∃ victim l₁ l₂,
      hybridEvictOne ⟨2, [(0, 5), (1, 6)], [(0, 1), (1, 1)], [0, 1], 0, 0⟩ =
        some { (⟨2, [(0, 5), (1, 6)], [(0, 1), (1, 1)], [0, 1], 0, 0⟩ : HybridState) with
               store := AL.del [(0, 5), (1, 6)] victim,
               freq := AL.del [(0, 1), (1, 1)] victim,
               recency := List.erase [0, 1] victim } ∧
      victim ∈ AL.keys [(0, 5), (1, 6)] ∧
      [0, 1] = l₁ ++ victim :: l₂ := by
  obtain ⟨victim, l₁, l₂, hev, hvs, -, hsplit, -⟩ :=
    (C5_hybrid_tiebreak ⟨2, [(0, 5), (1, 6)], [(0, 1), (1, 1)], [0, 1], 0, 0⟩
      (by decide) (by decide)).1
  exact ⟨victim, l₁, l₂, hev, hvs, hsplit⟩

/-- C6 (counterexample): the claim says every policy updates an existing
key's value on `put`, but `FIFOCache.put` is guarded by
`if key not in self.cache`, so putting key 1 with value 20 over an existing
value 10 leaves 10 in place. -/
theorem C6_counterexample :
    ((fifoPut 1 10 (fifoEmpty 2)).bind (fifoPut 1 20)).map
        (fun s => (fifoGet 1 s).1) = some (some 10) ∧
      (10 : Value) ≠ 20 := by
  constructor
  · rfl
  · decide

/-- C6 (amended): `put` on an existing key updates the stored value for
LRU, LFU (frequency also advances) and HYBRID; for FIFO and RANDOM it is a
complete no-op, leaving the old value in place. -/
theorem C6_amended :
    (∀ (s : LRUState) (k : Key) (v w : Value),
      AL.get? s.cache k = some w →
        ∃ t, lruPut k v s = some t ∧ AL.get? t.cache k = some v) ∧
    (∀ (s : LFUState) (k : Key) (v w : Value) (f : Nat),
      s.capacity ≠ 0 → AL.get? s.cache k = some (w, f) →
        ∃ t, lfuPut k v s = some t ∧ AL.get? t.cache k = some (v, f + 1)) ∧
    (∀ (s : HybridState) (k : Key) (v w : Value),
      AL.get? s.store k = some w →
        ∃ t, hybridPut k v s = some t ∧ AL.get? t.store k = some v) ∧
    (∀ (s : FIFOState) (k : Key) (v : Value),
      (AL.get? s.cache k).isSome → fifoPut k v s = some s) ∧
    (∀ (s : RandState) (k : Key) (v : Value) (r : Nat),
      (AL.get? s.cache k).isSome → randPut r k v s = some s) := by
  refine ⟨?_, ?_, ?_, ?_, ?_⟩
  · intro s k v w hm
    refine ⟨{ s with cache := AL.set (AL.del s.cache k ++ [(k, w)]) k v },
      by simp only [lruPut, hm], ?_⟩
    show AL.get? (AL.set (AL.del s.cache k ++ [(k, w)]) k v) k = some v
    exact AL.get?_set_self _ _ _
  · intro s k v w f hcap hm
    refine ⟨_, lfuPut_eq_promote s k v w f hcap hm, ?_⟩
    show AL.get? (AL.set s.cache k (v, f + 1)) k = some (v, f + 1)
    exact AL.get?_set_self _ _ _
  · intro s k v w hm
    refine ⟨{ s with store := AL.set s.store k v,
                     freq := AL.set s.freq k (fGet s.freq k + 1),
                     recency := s.recency.erase k ++ [k] },
      by simp [hybridPut, hm], ?_⟩
    show AL.get? (AL.set s.store k v) k = some v
    exact AL.get?_set_self _ _ _
  · intro s k v hm
    simp [fifoPut, hm]
  · intro s k v r hm
    simp [randPut, hm]

/-- Witness for C6 (amended) at concrete one-entry caches. -/
theorem C6_amended_witness :
    (∃ t, lruPut 1 20 ⟨2, [(1, 10)], 0, 0⟩ = some t ∧
      AL.get? t.cache 1 = some 20) ∧
    (∃ t, lfuPut 1 20 ⟨2, [(1, (10, 1))], [(1, [1])], 1, 0, 0⟩ = some t ∧
      AL.get? t.cache 1 = some (20, 2)) ∧
    fifoPut 1 20 ⟨2, [(1, 10)], 0, 0⟩ = some ⟨2, [(1, 10)], 0, 0⟩ :=
  ⟨C6_amended.1 ⟨2, [(1, 10)], 0, 0⟩ 1 20 10 (by decide),
   C6_amended.2.1 ⟨2, [(1, (10, 1))], [(1, [1])], 1, 0, 0⟩ 1 20 10 1
     (by decide) (by decide),
   C6_amended.2.2.2.1 ⟨2, [(1, 10)], 0, 0⟩ 1 20 (by decide)⟩

/-! ## The simulation engine (`src/simulation/engine.py`)

The engine is polymorphic in the cache facade, mirroring `CacheManager`'s
dynamic dispatch over the policy classes.  Node identifiers are natural
numbers. -/

/-- A request record `{client, content_id, size, region?}` as consumed by
`process_request` (`request.get('region', None)` reads the optional hint). -/
structure Request where
  client : Nat
  content_id : Key
  size : Nat
  region : Option Nat

/-- The network as consumed by the engine: the precomputed client→edge
mapping (`self.client_edge_map.get`, `None` for an absent client or when no
edge server exists), the latency oracle `get_latency`, and the
region→origin mapping `find_origin_server(client_region=...)`. -/
structure Network where
  nearestEdge : Nat → Option Nat
  get_latency : Nat → Nat → Nat
  find_origin_server : Option Nat → Nat

/-- The cache facade seen by the engine: a pure `contains`, a `get` whose
side effect applies the policy's promotion, and a `put` that may raise. -/
structure CacheOps (σ : Type) where
  contains : σ → Key → Bool
  get : σ → Key → Option Value × σ
  put : σ → Key → Value → Option σ

/-- The engine's mutable state: per-edge caches and load counters
(`self.edge_servers`), the metrics counters and sample lists
(`self.metrics`), and the processed-request list. -/
structure SimState (σ : Type) where
  caches : List (Nat × σ)
  loads : List (Nat × Nat)
  total_requests : Nat
  cache_hits : Nat
  cache_misses : Nat
  total_latency : Nat
  origin_requests : Nat
  bandwidth_saved : Nat
  server_loads : List (Nat × Nat)
  content_served : List (Key × Nat)
  hit_latencies : List Nat
  miss_latencies : List Nat
  requests_processed : List Request

/-- The common tail of the edge paths of `process_request`: count the
request, accumulate the latency, append the request to the processed list. -/
def simFinalize {σ : Type} (st : SimState σ) (lat : Nat) (req : Request) :
    SimState σ :=
  { st with total_requests := st.total_requests + 1,
            total_latency := st.total_latency + lat,
            requests_processed := st.requests_processed ++ [req] }

/-- `CDNSimulation.process_request`.  The no-edge path records the fixed
penalty latency 1000 into the miss sample list, counts the request and
returns without touching any cache or the processed-request list.  On the
edge path the edge's load counters rise, then a pure `contains` decides
hit (one client↔edge leg, promotion via `get`, bandwidth saved) versus
miss (client→edge + edge→origin + client→edge, `put` into the edge cache,
origin-fetch count).  `none` models an exception escaping (`KeyError` on an
unknown edge id, or a raising `put`). -/
def process_request {σ : Type} (net : Network) (co : CacheOps σ)
    (st : SimState σ) (req : Request) : Option (Nat × SimState σ) :=
  match net.nearestEdge req.client with
  | none =>
      some (1000, { st with total_requests := st.total_requests + 1,
                            total_latency := st.total_latency + 1000,
                            miss_latencies := st.miss_latencies ++ [1000] })
  | some edge =>
      match AL.get? st.caches edge with
      | none => none
      | some cache =>
          let st1 := { st with
            server_loads := AL.set st.server_loads edge
              ((AL.get? st.server_loads edge).getD 0 + 1),
            loads := AL.set st.loads edge
              ((AL.get? st.loads edge).getD 0 + 1) }
          if co.contains cache req.content_id then
            let lat := net.get_latency req.client edge
            let cache1 := (co.get cache req.content_id).2
            let st2 := { st1 with
              caches := AL.set st1.caches edge cache1,
              cache_hits := st1.cache_hits + 1,
              bandwidth_saved := st1.bandwidth_saved + req.size,
              content_served := AL.set st1.content_served req.content_id
                ((AL.get? st1.content_served req.content_id).getD 0 + 1),
              hit_latencies := st1.hit_latencies ++ [lat] }
            some (lat, simFinalize st2 lat req)
          else
            let origin := net.find_origin_server req.region
            let c2e := net.get_latency req.client edge
            let e2o := net.get_latency edge origin
            let lat := c2e + e2o + c2e
            match co.put cache req.content_id req.size with
            | none => none
            | some cache1 =>
                let st2 := { st1 with
                  caches := AL.set st1.caches edge cache1,
                  cache_misses := st1.cache_misses + 1,
                  origin_requests := st1.origin_requests + 1,
                  content_served := AL.set st1.content_served req.content_id
                    ((AL.get? st1.content_served req.content_id).getD 0 + 1),
                  miss_latencies := st1.miss_latencies ++ [lat] }
                some (lat, simFinalize st2 lat req)

/-- The metrics report of `CDNSimulation.get_metrics` (numeric fields;
floating-point divisions are modelled exactly over `ℚ`). -/
structure Metrics where
  hitRate : Rat
  avg_latency : Rat
  median_latency : Nat
  p95_latency : Nat
  p99_latency : Nat
  avg_hit_latency : Rat
  avg_miss_latency : Rat
  origin_requests : Nat
  cache_hits : Nat
  cache_misses : Nat
  total_requests : Nat
  bandwidthSavedRate : Rat
  total_bandwidth_saved_kb : Nat
  cache_efficiency : Rat

/-- `CDNSimulation.get_metrics`.  `all_latencies.sort()` is modelled by
`List.insertionSort (· ≤ ·)`, which produces the unique ascending
permutation, exactly as Python's `list.sort` on integers; the percentile
indices `len(all) // 2`, `int(len(all) * 0.95)` and `int(len(all) * 0.99)`
are `n / 2`, `95 * n / 100` and `99 * n / 100` (the float products round to
the exact values for every feasible list length). -/
def get_metrics {σ : Type} (cache_size : Nat) (st : SimState σ) : Metrics :=
  if st.total_requests = 0 then
    ⟨0, 0, 0, 0, 0, 0, 0, 0, 0, 0, 0, 0, 0, 0⟩
  else
    let all := (st.hit_latencies ++ st.miss_latencies).insertionSort (· ≤ ·)
    let n := all.length
    let median := match all with
      | [] => 0
      | _ :: _ => all.getD (n / 2) 0
    let p95_idx := 95 * n / 100
    let p99_idx := 99 * n / 100
    let p95 := if p95_idx < n then all.getD p95_idx 0 else 0
    let p99 := if p99_idx < n then all.getD p99_idx 0 else 0
    let total_bytes : Nat := (st.requests_processed.map (·.size)).sum
    { hitRate := (st.cache_hits : Rat) / (st.total_requests : Rat),
      avg_latency := (st.total_latency : Rat) / (st.total_requests : Rat),
      median_latency := median,
      p95_latency := p95,
      p99_latency := p99,
      avg_hit_latency :=
        if st.hit_latencies ≠ [] then
          (st.hit_latencies.sum : Rat) / (st.hit_latencies.length : Rat)
        else 0,
      avg_miss_latency :=
        if st.miss_latencies ≠ [] then
          (st.miss_latencies.sum : Rat) / (st.miss_latencies.length : Rat)
        else 0,
      origin_requests := st.origin_requests,
      cache_hits := st.cache_hits,
      cache_misses := st.cache_misses,
      total_requests := st.total_requests,
      bandwidthSavedRate :=
        if total_bytes > 0 then
          (st.bandwidth_saved : Rat) / (total_bytes : Rat)
        else 0,
      total_bandwidth_saved_kb := st.bandwidth_saved,
      cache_efficiency :=
        if cache_size > 0 then (st.cache_hits : Rat) / (cache_size : Rat)
        else 0 }

/-! ## Claims about the engine and the metrics -/

/-- C3: for a request that resolves to an edge whose cache does not hold
the content, the recorded latency is
`latency(client, edge) + latency(edge, origin) + latency(client, edge)`:
the client–edge leg exactly twice plus the edge–origin leg exactly once,
and that value is appended to the miss sample list. -/
theorem C3_miss_latency {σ : Type} (net : Network) (co : CacheOps σ)
    (st : SimState σ) (req : Request) (edge : Nat) (cache cache1 : σ)
    (hedge : net.nearestEdge req.client = some edge)
    (hcache : AL.get? st.caches edge = some cache)
    (hmiss : co.contains cache req.content_id = false)
    (hput : co.put cache req.content_id req.size = some cache1) :
    ∃ st', process_request net co st req =
        some (net.get_latency req.client edge +
              net.get_latency edge (net.find_origin_server req.region) +
              net.get_latency req.client edge, st') ∧
      st'.miss_latencies = st.miss_latencies ++
        [net.get_latency req.client edge +
         net.get_latency edge (net.find_origin_server req.region) +
         net.get_latency req.client edge] ∧
      st'.hit_latencies = st.hit_latencies ∧
      st'.cache_misses = st.cache_misses + 1 := by
  refine ⟨{ st with
      server_loads := AL.set st.server_loads edge
        ((AL.get? st.server_loads edge).getD 0 + 1),
      loads := AL.set st.loads edge ((AL.get? st.loads edge).getD 0 + 1),
      caches := AL.set st.caches edge cache1,
      cache_misses := st.cache_misses + 1,
      origin_requests := st.origin_requests + 1,
      content_served := AL.set st.content_served req.content_id
        ((AL.get? st.content_served req.content_id).getD 0 + 1),
      miss_latencies := st.miss_latencies ++
        [net.get_latency req.client edge +
         net.get_latency edge (net.find_origin_server req.region) +
         net.get_latency req.client edge],
      total_requests := st.total_requests + 1,
      total_latency := st.total_latency +
        (net.get_latency req.client edge +
         net.get_latency edge (net.find_origin_server req.region) +
         net.get_latency req.client edge),
      requests_processed := st.requests_processed ++ [req] }, ?_, rfl, rfl, rfl⟩
  simp [process_request, simFinalize, hedge, hcache, hmiss, hput]

/-- Witness for C3 on a concrete one-edge network with an `LRUCache`. -/
theorem C3_miss_latency_witness :
    ∃ st', process_request ⟨fun _ => some 5, fun a b => a + 2 * b, fun _ => 7⟩
        ⟨fun s k => lruContains k s, fun s k => lruGet k s,
         fun s k v => lruPut k v s⟩
        ⟨[(5, lruEmpty 2)], [], 0, 0, 0, 0, 0, 0, [], [], [], [], []⟩
        ⟨0, 42, 100, none⟩ =
      some ((0 + 2 * 5) + (5 + 2 * 7) + (0 + 2 * 5), st') ∧
      st'.miss_latencies = [] ++ [(0 + 2 * 5) + (5 + 2 * 7) + (0 + 2 * 5)] := by
  obtain ⟨st', h1, h2, -, -⟩ :=
    C3_miss_latency ⟨fun _ => some 5, fun a b => a + 2 * b, fun _ => 7⟩
      ⟨fun s k => lruContains k s, fun s k => lruGet k s,
       fun s k v => lruPut k v s⟩
      ⟨[(5, lruEmpty 2)], [], 0, 0, 0, 0, 0, 0, [], [], [], [], []⟩
      ⟨0, 42, 100, none⟩ 5 (lruEmpty 2) ⟨2, [(42, 100)], 0, 0⟩
      rfl rfl rfl rfl
  exact ⟨st', h1, h2⟩

/-- C7: when the client has no edge server, the engine records the fixed
penalty latency 1000, counts the request and the latency, and performs no
cache operation: hit and miss counters, every edge cache, the load tables
and the hit sample list are all unchanged. -/
theorem C7_penalty_frame {σ : Type} (net : Network) (co : CacheOps σ)
    (st : SimState σ) (req : Request)
    (hnone : net.nearestEdge req.client = none) :
    process_request net co st req =
      some (1000, { st with total_requests := st.total_requests + 1,
                            total_latency := st.total_latency + 1000,
                            miss_latencies := st.miss_latencies ++ [1000] }) ∧
    ∀ st', process_request net co st req = some (1000, st') →
      st'.cache_hits = st.cache_hits ∧
      st'.cache_misses = st.cache_misses ∧
      st'.caches = st.caches ∧
      st'.loads = st.loads ∧
      st'.server_loads = st.server_loads ∧
      st'.hit_latencies = st.hit_latencies ∧
      st'.requests_processed = st.requests_processed ∧
      st'.total_requests = st.total_requests + 1 ∧
      st'.total_latency = st.total_latency + 1000 := by
  have heq : process_request net co st req =
      some (1000, { st with total_requests := st.total_requests + 1,
                            total_latency := st.total_latency + 1000,
                            miss_latencies := st.miss_latencies ++ [1000] }) := by
    simp [process_request, hnone]
  refine ⟨heq, ?_⟩
  intro st' h
  rw [heq] at h
  have h2 : ({ st with
               total_requests := st.total_requests + 1,
               total_latency := st.total_latency + 1000,
               miss_latencies := st.miss_latencies ++ [1000] } : SimState σ) = st' :=
    congrArg Prod.snd (Option.some.inj h)
  rw [← h2]
  exact ⟨rfl, rfl, rfl, rfl, rfl, rfl, rfl, rfl, rfl⟩

/-- Witness for C7 on a concrete edgeless network. -/
theorem C7_penalty_frame_witness :
    process_request (⟨fun _ => none, fun _ _ => 3, fun _ => 0⟩ : Network)
      ⟨fun s k => lruContains k s, fun s k => lruGet k s,
       fun s k v => lruPut k v s⟩
      ⟨[(5, lruEmpty 2)], [], 0, 0, 0, 0, 0, 0, [], [], [], [], []⟩
      ⟨0, 42, 100, none⟩ =
    some (1000, ⟨[(5, lruEmpty 2)], [], 0 + 1, 0, 0, 0 + 1000, 0, 0, [], [],
      [], [] ++ [1000], []⟩) :=
  (C7_penalty_frame (⟨fun _ => none, fun _ _ => 3, fun _ => 0⟩ : Network)
    ⟨fun s k => lruContains k s, fun s k => lruGet k s,
     fun s k v => lruPut k v s⟩
    ⟨[(5, lruEmpty 2)], [], 0, 0, 0, 0, 0, 0, [], [], [], [], []⟩
    ⟨0, 42, 100, none⟩ rfl).1

/-- A state holding the spec's percentile example: latency samples
`[5, 10, 15]` on the hit path and seven `20`s on the miss path (n = 10). -/
def percentileSample : SimState Unit :=
  ⟨[], [], 10, 0, 0, 0, 0, 0, [], [], [5, 10, 15],
   [20, 20, 20, 20, 20, 20, 20], []⟩

/-- C8: for a non-empty run, `median_latency`, `p95_latency` and
`p99_latency` are the elements at indices `⌊n/2⌋`, `⌊0.95·n⌋` and
`⌊0.99·n⌋` of the ascending sort of the concatenated hit and miss sample
lists (0 for an empty list, 0 when the index is not below the length —
which never happens for nonempty lists); on samples
`[5,10,15,20,20,20,20,20,20,20]` the median (index 5) and p95 (index 9)
are both 20. -/
theorem C8_percentile_selection {σ : Type} (cap : Nat) (st : SimState σ)
    (htot : st.total_requests ≠ 0) (l : List Nat)
    (hperm : l.Perm (st.hit_latencies ++ st.miss_latencies))
    (hsort : l.Sorted (· ≤ ·)) :
    ((get_metrics cap st).median_latency =
      match l with
      | [] => 0
      | _ :: _ => l.getD (l.length / 2) 0) ∧
    ((get_metrics cap st).p95_latency =
      if 95 * l.length / 100 < l.length then l.getD (95 * l.length / 100) 0
      else 0) ∧
    ((get_metrics cap st).p99_latency =
      if 99 * l.length / 100 < l.length then l.getD (99 * l.length / 100) 0
      else 0) ∧
    (get_metrics 1 percentileSample).median_latency = 20 ∧
    (get_metrics 1 percentileSample).p95_latency = 20 := by
  haveI hTot : IsTotal Nat (· ≤ ·) := ⟨Nat.le_total⟩
  haveI hTrans : IsTrans Nat (· ≤ ·) := ⟨fun _ _ _ => Nat.le_trans⟩
  haveI hAnti : IsAntisymm Nat (· ≤ ·) := ⟨fun _ _ => Nat.le_antisymm⟩
  have hl : l = (st.hit_latencies ++ st.miss_latencies).insertionSort (· ≤ ·) :=
    List.eq_of_perm_of_sorted
      (hperm.trans (List.perm_insertionSort _ _).symm) hsort
      (List.sorted_insertionSort _ _)
  subst hl
  refine ⟨?_, ?_, ?_, by decide, by decide⟩
  · simp only [get_metrics, if_neg htot]
  · simp only [get_metrics, if_neg htot]
  · simp only [get_metrics, if_neg htot]

/-- Witness for C8 on the spec's sample state. -/
theorem C8_percentile_selection_witness :
    (get_metrics 1 percentileSample).median_latency =
      (match [5, 10, 15, 20, 20, 20, 20, 20, 20, 20] with
       | [] => 0
       | _ :: _ => List.getD [5, 10, 15, 20, 20, 20, 20, 20, 20, 20]
           (List.length [5, 10, 15, 20, 20, 20, 20, 20, 20, 20] / 2) 0) := by
  obtain ⟨h1, -, -, -, -⟩ :=
    C8_percentile_selection 1 percentileSample (by decide)
      [5, 10, 15, 20, 20, 20, 20, 20, 20, 20] (by decide) (by decide)
  exact h1

/-- C9: the no-edge penalty request appends 1000 to the miss-path sample
list without incrementing the cache-miss counter, so the percentile source
list gains the 1000 and the reported average miss latency averages it in. -/
theorem C9_penalty_in_miss_samples {σ : Type} (cap : Nat) (net : Network)
    (co : CacheOps σ) (st : SimState σ) (req : Request)
    (hnone : net.nearestEdge req.client = none) :
    ∃ st', process_request net co st req = some (1000, st') ∧
      st'.miss_latencies = st.miss_latencies ++ [1000] ∧
      st'.cache_misses = st.cache_misses ∧
      st'.hit_latencies ++ st'.miss_latencies =
        (st.hit_latencies ++ st.miss_latencies) ++ [1000] ∧
      (get_metrics cap st').avg_miss_latency =
        ((st.miss_latencies.sum + 1000 : Nat) : Rat) /
          ((st.miss_latencies.length + 1 : Nat) : Rat) := by
  refine ⟨{ st with
            total_requests := st.total_requests + 1,
            total_latency := st.total_latency + 1000,
            miss_latencies := st.miss_latencies ++ [1000] },
    ?_, rfl, rfl, ?_, ?_⟩
  · simp [process_request, hnone]
  · exact (List.append_assoc _ _ _).symm
  · have htot' : st.total_requests + 1 ≠ 0 := Nat.succ_ne_zero _
    simp only [get_metrics, if_neg htot']
    rw [if_pos (by simp)]
    simp [List.sum_append, List.length_append]

/-- Witness for C9 on a concrete edgeless network. -/
theorem C9_penalty_in_miss_samples_witness :
    ∃ st', process_request (⟨fun _ => none, fun _ _ => 3, fun _ => 0⟩ : Network)
        ⟨fun s k => lruContains k s, fun s k => lruGet k s,
         fun s k v => lruPut k v s⟩
        ⟨[(5, lruEmpty 2)], [], 0, 0, 0, 0, 0, 0, [], [], [], [7], []⟩
        ⟨0, 42, 100, none⟩ = some (1000, st') ∧
      st'.miss_latencies = [7] ++ [1000] ∧
      (get_metrics 2 st').avg_miss_latency =
        ((List.sum [7] + 1000 : Nat) : Rat) /
          ((List.length [7] + 1 : Nat) : Rat) := by
  obtain ⟨st', h1, h2, -, -, h3⟩ :=
    C9_penalty_in_miss_samples 2 (⟨fun _ => none, fun _ _ => 3, fun _ => 0⟩ : Network)
      ⟨fun s k => lruContains k s, fun s k => lruGet k s,
       fun s k v => lruPut k v s⟩
      ⟨[(5, lruEmpty 2)], [], 0, 0, 0, 0, 0, 0, [], [], [], [7], []⟩
      ⟨0, 42, 100, none⟩ rfl
  exact ⟨st', h1, h2, h3⟩

/-- C10: the no-edge penalty request is not appended to the
processed-request list, so the bandwidth-saved fraction reported afterwards
still divides by the total bytes of only the requests that reached an edge
cache. -/
theorem C10_bandwidth_excludes_penalty {σ : Type} (cap : Nat) (net : Network)
    (co : CacheOps σ) (st : SimState σ) (req : Request)
    (hnone : net.nearestEdge req.client = none) :
    ∃ st', process_request net co st req = some (1000, st') ∧
      st'.requests_processed = st.requests_processed ∧
      st'.bandwidth_saved = st.bandwidth_saved ∧
      (get_metrics cap st').bandwidthSavedRate =
        (if (st.requests_processed.map (·.size)).sum > 0 then
          (st.bandwidth_saved : Rat) /
            (((st.requests_processed.map (·.size)).sum : Nat) : Rat)
        else 0) := by
  refine ⟨{ st with
            total_requests := st.total_requests + 1,
            total_latency := st.total_latency + 1000,
            miss_latencies := st.miss_latencies ++ [1000] },
    ?_, rfl, rfl, ?_⟩
  · simp [process_request, hnone]
  · have htot' : st.total_requests + 1 ≠ 0 := Nat.succ_ne_zero _
    simp only [get_metrics, if_neg htot']

/-- Witness for C10 on a concrete edgeless network with one previously
processed request of size 100. -/
theorem C10_bandwidth_excludes_penalty_witness :
    ∃ st', process_request (⟨fun _ => none, fun _ _ => 3, fun _ => 0⟩ : Network)
        ⟨fun s k => lruContains k s, fun s k => lruGet k s,
         fun s k v => lruPut k v s⟩
        ⟨[(5, lruEmpty 2)], [], 1, 0, 1, 20, 1, 0, [], [], [], [20],
         [⟨0, 42, 100, none⟩]⟩
        ⟨0, 43, 50, none⟩ = some (1000, st') ∧
      st'.requests_processed = [⟨0, 42, 100, none⟩] ∧
      (get_metrics 2 st').bandwidthSavedRate =
        (if (List.map (fun r => Request.size r) [(⟨0, 42, 100, none⟩ : Request)]).sum > 0 then
          ((0 : Nat) : Rat) /
            (((List.map (fun r => Request.size r) [(⟨0, 42, 100, none⟩ : Request)]).sum : Nat) : Rat)
        else 0) := by
  obtain ⟨st', h1, h2, -, h3⟩ :=
    C10_bandwidth_excludes_penalty 2
      (⟨fun _ => none, fun _ _ => 3, fun _ => 0⟩ : Network)
      ⟨fun s k => lruContains k s, fun s k => lruGet k s,
       fun s k v => lruPut k v s⟩
      ⟨[(5, lruEmpty 2)], [], 1, 0, 1, 20, 1, 0, [], [], [], [20],
       [⟨0, 42, 100, none⟩]⟩
      ⟨0, 43, 50, none⟩ rfl
  exact ⟨st', h1, h2, h3⟩
